import Mathlib

set_option maxHeartbeats 1000000

namespace Upsun

/-- PHP array keys: strings or integers (JSON object keys decode to strings;
JSON list indices and canonical integer strings decode to integer keys). -/
inductive PKey where
  | ks (s : String)
  | ki (n : Int)
deriving DecidableEq, Repr

/-- A decoded PHP value, as produced by json_decode with associative arrays.
`parr` is an ordered key-value map (a PHP array); `pobj` is the stdClass
marker produced only by forceEmptyObjects just before encoding. -/
inductive PVal where
  | pnull
  | pbool (b : Bool)
  | pint (n : Int)
  | pstr (s : String)
  | pobj
  | parr (entries : List (PKey × PVal))

open PKey PVal

mutual
/-- Size measure used for termination of recursive tree walks. -/
def PVal.psize : PVal → Nat
  | parr l => 1 + psizeList l
  | _ => 1
/-- Size measure of a PHP array, entry by entry. -/
def psizeList : List (PKey × PVal) → Nat
  | [] => 0
  | kv :: t => 1 + kv.2.psize + psizeList t
end

/-- First-match lookup in a PHP array (PHP arrays have unique keys). -/
def aget (l : List (PKey × PVal)) (k : PKey) : Option PVal :=
  match l with
  | [] => none
  | (k', v) :: t => if k' = k then some v else aget t k

/-- PHP array write: replaces the value in place when the key exists,
appends at the end otherwise. -/
def aset (l : List (PKey × PVal)) (k : PKey) (v : PVal) : List (PKey × PVal) :=
  match l with
  | [] => [(k, v)]
  | (k', v') :: t => if k' = k then (k, v) :: t else (k', v') :: aset t k v

/-- PHP truthiness of a decoded value: null, false, 0, the empty string,
the string "0" and the empty array are falsy; everything else is truthy. -/
def phpTruthy : PVal → Bool
  | pnull => false
  | pbool b => b
  | pint n => n != 0
  | pstr s => s != "" && s != "0"
  | pobj => true
  | parr l => !l.isEmpty

/-- Array offset read on an arbitrary value: key lookup on arrays, nothing on
scalars (matching the error-free isset and null-coalescing reads the script
uses; reads the script performs without such guards are only reached on
well-formed shapes, which the theorems assume). -/
def pidx : PVal → PKey → Option PVal
  | parr l, k => aget l k
  | _, _ => none

/-- PHP isset on one offset: the key exists and its value is not null. -/
def pisset (v : PVal) (k : PKey) : Bool :=
  match pidx v k with
  | some pnull => false
  | some _ => true
  | none => false

/-- The expression v[k] ?? d of PHP: the value unless it is missing or null. -/
def pqq (v : PVal) (k : PKey) (d : PVal) : PVal :=
  match pidx v k with
  | some pnull => d
  | some w => w
  | none => d

/-- Nested offset read along a key path. -/
def pget : PVal → List PKey → Option PVal
  | v, [] => some v
  | v, k :: p =>
    match pidx v k with
    | some w => pget w p
    | none => none

/-- PHP isset on a nested offset chain: every step exists, final value not null. -/
def pissetPath (v : PVal) (p : List PKey) : Bool :=
  match pget v p with
  | some pnull => false
  | some _ => true
  | none => false

/-- Nested read defaulting to null. -/
def pgetD (v : PVal) (p : List PKey) : PVal :=
  match pget v p with
  | some w => w
  | none => pnull

/-- The string content of a value, for places where the script requires a
string (guarded by isset in the source; empty on other shapes). -/
def asStr : PVal → String
  | pstr s => s
  | _ => ""

/-- Offset write on a value: writes into arrays, materializes an array when
writing into null (PHP auto-vivification); other scalars are left unchanged
(PHP raises there; the theorems assume shapes where this is not reached). -/
def pput (v : PVal) (k : PKey) (w : PVal) : PVal :=
  match v with
  | parr l => parr (aset l k w)
  | pnull => parr [(k, w)]
  | x => x

/-- PHP explode on a one-character delimiter, over character lists. -/
def explodeOn (sep : Char) : List Char → List (List Char)
  | [] => [[]]
  | c :: t =>
    if c = sep then [] :: explodeOn sep t
    else
      match explodeOn sep t with
      | [] => [[c]]
      | h :: r => (c :: h) :: r

/-- The last element of explode, as end(explode(sep, s)) computes it. -/
def lastSegment (s : String) : String :=
  String.mk ((explodeOn '/' s.data).getLastD [])

/-- The model class name built from a reference string in addXReturn and
collectMainRefs: the namespace prefix plus the last path segment. -/
def clsOf (ref : String) : String :=
  "\\Upsun\\Model\\" ++ lastSegment ref

/-! ### The route-variant group

makePropertiesNullable, cleanRequiredProperties and their helpers act on
the components.schemas map of the document, which the script reads as
schema.components.schemas; the functions below take that map directly. -/

/-- The fixed route-variant group of the script. -/
def routeTypes : List String := ["ProxyRoute", "RedirectRoute", "UpstreamRoute"]

/-- route.properties ?? [], as an entry list. -/
def propsListOf (route : PVal) : List (PKey × PVal) :=
  match pqq route (ks "properties") pnull with
  | parr l => l
  | _ => []

/-- isset on schemas[rt]. -/
def routeIsset (S : List (PKey × PVal)) (rt : String) : Bool :=
  match aget S (ks rt) with
  | some pnull => false
  | some _ => true
  | none => false

/-- The schema of a route type, null when absent. -/
def routeVal (S : List (PKey × PVal)) (rt : String) : PVal :=
  (aget S (ks rt)).getD pnull

/-- schemas[rt].properties ?? [] of the live schemas map. -/
def routePropsOf (S : List (PKey × PVal)) (rt : String) : List (PKey × PVal) :=
  propsListOf (routeVal S rt)

/-- One property entry of the collection loop of collectAllRouteProperties:
the entry is written into the accumulated map when its key is not set
there. -/
def collectStep (acc2 : List (PKey × PVal)) (kv : PKey × PVal) : List (PKey × PVal) :=
  if pisset (parr acc2) kv.1 then acc2 else aset acc2 kv.1 kv.2

/-- One route type of the collection loop of collectAllRouteProperties. -/
def collectRoute (S : List (PKey × PVal)) (acc : List (PKey × PVal)) (rt : String) :
    List (PKey × PVal) :=
  if !routeIsset S rt then acc else (routePropsOf S rt).foldl collectStep acc

/-- collectAllRouteProperties: the first-seen union of the properties of the
route types present in the schemas map. -/
def collectAllRouteProperties (S : List (PKey × PVal)) : List (PKey × PVal) :=
  routeTypes.foldl (collectRoute S) []

/-- createNullableProperty: wraps a reference in anyOf with a null type and a
nullable flag, and otherwise just sets nullable = true on a copy. -/
def createNullableProperty (originalProperty : PVal) : PVal :=
  if pisset originalProperty (ks "$ref") then
    parr
      [(ks "anyOf",
        parr
          [(ki 0, parr [(ks "$ref", pqq originalProperty (ks "$ref") pnull)]),
           (ki 1, parr [(ks "type", pstr "null")])]),
       (ks "nullable", pbool true)]
  else pput originalProperty (ks "nullable") (pbool true)

/-- The nullable flag of props[k], read as props[k].nullable ?? false. -/
def nullableFlag (props : List (PKey × PVal)) (k : PKey) : Bool :=
  phpTruthy (pqq (pqq (parr props) k pnull) (ks "nullable") (pbool false))

/-- The write route.properties[k].nullable = true on the live route value. -/
def forceNullableAt (route : PVal) (k : PKey) : PVal :=
  let props := propsListOf route
  let cur := pqq (parr props) k pnull
  pput route (ks "properties") (parr (aset props k (pput cur (ks "nullable") (pbool true))))

/-- The cross-variant nullability test of makePropertiesNullable: some other
route type of the group has the property set and nullable. The source loop
breaks at the first hit; since the guarded write is the same at every hit,
the break is equivalent to this any. -/
def anyOtherNullable (S : List (PKey × PVal)) (rt : String) (k : PKey) : Bool :=
  routeTypes.any fun other =>
    other != rt &&
      (let otherProps := routePropsOf S other
       pisset (parr otherProps) k && nullableFlag otherProps k)

/-- The existing-property branch of the loop body of makePropertiesNullable:
the id force, then the cross-variant nullability force. -/
def stepExisting (S : List (PKey × PVal)) (rt : String) (existing : List (PKey × PVal))
    (route : PVal) (kv : PKey × PVal) : PVal :=
  let route1 :=
    if kv.1 == ks "id" && !nullableFlag existing kv.1 then forceNullableAt route kv.1
    else route
  if anyOtherNullable S rt kv.1 && !nullableFlag existing kv.1 then forceNullableAt route1 kv.1
  else route1

/-- One iteration of the property loop of makePropertiesNullable for route
rt over one entry of the collected allProperties map: existing is the
snapshot of the properties the route had when its loop began, S the schemas
map as it stands while this route is processed (other routes are read live),
route the value being mutated. -/
def stepProp (S : List (PKey × PVal)) (rt : String) (existing : List (PKey × PVal))
    (route : PVal) (kv : PKey × PVal) : PVal :=
  if !pisset (parr existing) kv.1 then
    pput route (ks "properties")
      (parr (aset (propsListOf route) kv.1 (createNullableProperty kv.2)))
  else stepExisting S rt existing route kv

/-- The body of makePropertiesNullable for one route type. -/
def processRoute (allProperties : List (PKey × PVal)) (S : List (PKey × PVal))
    (rt : String) : List (PKey × PVal) :=
  if !routeIsset S rt then S
  else
    let route := routeVal S rt
    let existing := propsListOf route
    aset S (ks rt) (allProperties.foldl (stepProp S rt existing) route)

/-- makePropertiesNullable over the schemas map: collect all properties of
the group, then give every route every property, cloned nullable when
missing, with id and cross-variant nullability forced on existing copies. -/
def makePropertiesNullable (S : List (PKey × PVal)) : List (PKey × PVal) :=
  let allProperties := collectAllRouteProperties S
  routeTypes.foldl (processRoute allProperties) S

/-- The filter callback of cleanRequiredProperties: a required entry is kept
when its property definition exists, is truthy, and its nullable flag is
not truthy. -/
def keepRequired (properties : PVal) (entry : PVal) : Bool :=
  let prop :=
    match entry with
    | pstr n => pqq properties (ks n) pnull
    | pint n => pqq properties (ki n) pnull
    | _ => pnull
  phpTruthy prop && !phpTruthy (pqq prop (ks "nullable") (pbool false))

/-- array_values: sequential integer keys in list order. -/
def reindex (l : List PVal) : List (PKey × PVal) :=
  l.enum.map fun p => (ki (p.1 : Int), p.2)

/-- The body of cleanRequiredProperties for one route type. -/
def cleanRoute (S : List (PKey × PVal)) (rt : String) : List (PKey × PVal) :=
  if !pissetPath (parr S) [ks rt, ks "required"] then S
  else
    let route := routeVal S rt
    let required : List (PKey × PVal) :=
      match pqq route (ks "required") (parr []) with
      | parr l => l
      | _ => []
    let properties := pqq route (ks "properties") (parr [])
    let cleanRequired := required.filter fun kv => keepRequired properties kv.2
    if 0 < required.length - cleanRequired.length then
      aset S (ks rt) (pput route (ks "required") (parr (reindex (cleanRequired.map Prod.snd))))
    else S

/-- cleanRequiredProperties over the schemas map. -/
def cleanRequiredProperties (S : List (PKey × PVal)) : List (PKey × PVal) :=
  routeTypes.foldl cleanRoute S

/-! ### Size lemmas for the recursive tree walks -/

theorem psizeList_nonneg (l : List (PKey × PVal)) : 0 ≤ psizeList l := Nat.zero_le _

theorem psizeList_pos_of_ne_nil {l : List (PKey × PVal)} (h : l ≠ []) : 1 ≤ psizeList l := by
  cases l with
  | nil => exact absurd rfl h
  | cons kv t => simp only [psizeList]; omega

theorem psize_lt_of_mem {l : List (PKey × PVal)} {kv : PKey × PVal} (h : kv ∈ l) :
    kv.2.psize < psizeList l := by
  induction l with
  | nil => simp at h
  | cons kv' t ih =>
    rcases List.mem_cons.mp h with h1 | h2
    · subst h1; simp [psizeList]; omega
    · have := ih h2; simp [psizeList]; omega

theorem psize_pos (v : PVal) : 0 < v.psize := by
  cases v <;> simp only [PVal.psize] <;> omega

theorem aget_psize_le {l : List (PKey × PVal)} {k : PKey} {r : PVal}
    (h : aget l k = some r) : 1 + r.psize ≤ psizeList l := by
  induction l with
  | nil => simp [aget] at h
  | cons kv t ih =>
    obtain ⟨k', v⟩ := kv
    simp only [aget] at h
    by_cases hk : k' = k
    · simp [hk] at h; subst h; simp only [psizeList]; omega
    · simp [hk] at h; have := ih h; simp only [psizeList]; omega

theorem psizeList_filter_le (p : PKey × PVal → Bool) (l : List (PKey × PVal)) :
    psizeList (l.filter p) ≤ psizeList l := by
  induction l with
  | nil => simp [psizeList]
  | cons kv t ih =>
    by_cases hp : p kv
    · simp [List.filter_cons, hp, psizeList]; omega
    · simp [List.filter_cons, hp, psizeList]; omega

/-- The keys of an array node that are not the reference key, as
array_diff_key computes them in fixAllRefsWithAllOf. -/
def refExtras (l : List (PKey × PVal)) : List (PKey × PVal) :=
  l.filter fun kv => kv.1 != ks "$ref"

/-- isset on the reference key of an array node. -/
def refIsset (l : List (PKey × PVal)) : Bool :=
  match aget l (ks "$ref") with
  | some pnull => false
  | some _ => true
  | none => false

theorem refIsset_spec {l : List (PKey × PVal)} (h : refIsset l = true) :
    aget l (ks "$ref") = some (pqq (parr l) (ks "$ref") pnull) := by
  unfold refIsset at h
  unfold pqq pidx
  cases hg : aget l (ks "$ref") with
  | none => rw [hg] at h; simp at h
  | some r =>
    rw [hg] at h
    cases r <;> simp_all

theorem psizeList_extras_split {l : List (PKey × PVal)} {r : PVal}
    (h : aget l (ks "$ref") = some r) :
    psizeList (refExtras l) + 1 + r.psize ≤ psizeList l := by
  induction l with
  | nil => simp [aget] at h
  | cons kv t ih =>
    obtain ⟨k', v⟩ := kv
    simp only [aget] at h
    by_cases hk : k' = ks "$ref"
    · simp [hk] at h
      subst h
      have := psizeList_filter_le (fun kv => kv.1 != ks "$ref") t
      simp [refExtras, List.filter_cons, hk, psizeList]
      simp [refExtras] at this
      omega
    · simp [hk] at h
      have := ih h
      simp [refExtras, List.filter_cons, hk, psizeList]
      simp [refExtras] at this
      omega

mutual
/-- fixAllRefsWithAllOf: any array node that carries a set reference key
together with other keys is replaced by an allOf of the reference-only copy
and the remaining keys, recursing into the two new members; all other array
nodes recurse into their children. -/
def fixAllRefsWithAllOf (node : PVal) : PVal :=
  match node with
  | parr l =>
    if h : refIsset l = true ∧ (refExtras l).isEmpty = false then
      parr
        [(ks "allOf",
          parr
            [(ki 0, fixAllRefsWithAllOf (parr [(ks "$ref", pqq (parr l) (ks "$ref") pnull)])),
             (ki 1, fixAllRefsWithAllOf (parr (refExtras l)))])]
    else parr (fixRefsList l)
  | x => x
termination_by node.psize
decreasing_by
  all_goals simp_wf
  · obtain ⟨h1, h2⟩ := h
    have hs := refIsset_spec h1
    have := psizeList_extras_split hs
    have hne : refExtras l ≠ [] := by
      intro hc
      rw [hc] at h2
      simp [List.isEmpty] at h2
    have := psizeList_pos_of_ne_nil hne
    simp only [PVal.psize, psizeList]
    omega
  · obtain ⟨h1, h2⟩ := h
    have hs := refIsset_spec h1
    have := psizeList_extras_split hs
    simp only [PVal.psize]
    omega
  · simp only [PVal.psize]
    omega
/-- The child recursion of fixAllRefsWithAllOf over the entries of a node. -/
def fixRefsList (l : List (PKey × PVal)) : List (PKey × PVal) :=
  match l with
  | [] => []
  | kv :: t => (kv.1, fixAllRefsWithAllOf kv.2) :: fixRefsList t
termination_by psizeList l
decreasing_by
  all_goals simp_wf
  · simp only [psizeList]
    omega
  · simp only [psizeList]
    omega
end

mutual
/-- forceEmptyObjects: recursively turns every empty array into the empty
object marker, except one whose path ends at the BearerAuth key, which
stays an empty array; non-empty arrays recurse into their entries. -/
def forceEmptyObjects (data : PVal) (path : List PKey) : PVal :=
  match data with
  | parr l =>
    let isSecurityNode := !path.isEmpty && (path.getLastD (ks "") == ks "BearerAuth")
    if l.isEmpty && !isSecurityNode then pobj
    else if l.isEmpty && isSecurityNode then parr []
    else
      let result := forceEmptyList l path
      let isAssociative := l.map Prod.fst != (List.range l.length).map (fun i => ki (i : Int))
      if isAssociative && result.isEmpty then pobj else parr result
  | x => x
termination_by data.psize
decreasing_by
  all_goals simp_wf
  simp only [PVal.psize]
  omega
/-- The child recursion of forceEmptyObjects, extending the path per entry. -/
def forceEmptyList (l : List (PKey × PVal)) (path : List PKey) : List (PKey × PVal) :=
  match l with
  | [] => []
  | kv :: t => (kv.1, forceEmptyObjects kv.2 (path ++ [kv.1])) :: forceEmptyList t path
termination_by psizeList l
decreasing_by
  all_goals simp_wf
  · simp only [psizeList]
    omega
  · simp only [psizeList]
    omega
end

/-- str_replace for a two-character needle: scans left to right, replacing
each non-overlapping occurrence and continuing after it. -/
def replace2 (p1 p2 : Char) (r : List Char) : List Char → List Char
  | [] => []
  | [c] => [c]
  | c :: d :: t =>
    if c = p1 ∧ d = p2 then r ++ replace2 p1 p2 r t
    else c :: replace2 p1 p2 r (d :: t)

/-- str_replace for a three-character needle: scans left to right, replacing
each non-overlapping occurrence and continuing after it. -/
def replace3 (p1 p2 p3 : Char) (r : List Char) : List Char → List Char
  | [] => []
  | [c] => [c]
  | [c, d] => [c, d]
  | c :: d :: e :: t =>
    if c = p1 ∧ d = p2 ∧ e = p3 then r ++ replace3 p1 p2 p3 r t
    else c :: replace3 p1 p2 p3 r (d :: e :: t)

/-- toPascalCase: despite its name and its doc comment in the source, it
only applies the five literal acronym substitutions and performs no casing. -/
def toPascalCase (name : String) : String :=
  String.mk
    (replace3 'V' 'P' 'N' ['V', 'p', 'n']
      (replace3 'T' 'L' 'S' ['T', 'l', 's']
        (replace3 'M' 'F' 'A' ['M', 'f', 'a']
          (replace3 'S' 'S' 'H' ['S', 's', 'h']
            (replace3 'A' 'P' 'I' ['A', 'p', 'i'] name.data)))))

/-- One renameMap entry applied to a reference string: rewritten only on
exact equality with the old schema reference. -/
def applyRename (cur : String) (entry : String × String) : String :=
  if cur = "#/components/schemas/" ++ entry.1 then "#/components/schemas/" ++ entry.2
  else cur

/-- The entry walk of updateRefsRecursively: array values recurse, and a
string value under the reference key is rewritten through the rename map. -/
def updateRefsList (renameMap : List (String × String)) (l : List (PKey × PVal)) :
    List (PKey × PVal) :=
  match l with
  | [] => []
  | (k, v) :: t =>
    let v' :=
      match v with
      | parr l' => parr (updateRefsList renameMap l')
      | pstr s => if k = ks "$ref" then pstr (renameMap.foldl applyRename s) else pstr s
      | x => x
    (k, v') :: updateRefsList renameMap t
termination_by psizeList l
decreasing_by
  all_goals simp_wf
  · simp only [psizeList, PVal.psize]
    omega
  · simp only [psizeList]
    omega

/-- updateRefsRecursively on a whole document node. -/
def updateRefsRecursively (renameMap : List (String × String)) (node : PVal) : PVal :=
  match node with
  | parr l => parr (updateRefsList renameMap l)
  | x => x

/-- Nested offset write along a key path, vivifying through null as PHP
assignment does. -/
def pputPath : PVal → List PKey → PVal → PVal
  | _, [], w => w
  | v, k :: p, w => pput v k (pputPath (pqq v k pnull) p w)

/-- normalizeSchemaNamesToPascalCase: rebuilds the schemas map with
toPascalCase keys, collects the map of names that changed, and when that map
is not empty rewrites every matching reference in the whole document. -/
def normalizeSchemaNamesToPascalCase (doc : PVal) : PVal :=
  if !pissetPath doc [ks "components", ks "schemas"] then doc
  else
    let schemas : List (PKey × PVal) :=
      match pgetD doc [ks "components", ks "schemas"] with
      | parr l => l
      | _ => []
    let step := fun (st : List (PKey × PVal) × List (String × String)) (kv : PKey × PVal) =>
      match kv.1 with
      | ks name =>
        let pascalName := toPascalCase name
        (aset st.1 (ks pascalName) kv.2,
         if pascalName ≠ name then st.2 ++ [(name, pascalName)] else st.2)
      | ki n => (aset st.1 (ki n) kv.2, st.2)
    let res := schemas.foldl step ([], [])
    let doc1 := pputPath doc [ks "components", ks "schemas"] (parr res.1)
    if !res.2.isEmpty then updateRefsRecursively res.2 doc1 else doc1

/-! ### Return-type annotation (addXReturn and its helpers) -/

/-- The success filter of the return-types loop of addXReturn: an integer
status between 200 and 299, or the literal default key. Status keys of the
decoded document are integer keys for canonical integer strings; numeric
strings that are not canonical integers are not modelled. -/
def isSuccessKey1 : PKey → Bool
  | ki n => decide (200 ≤ n ∧ n ≤ 299)
  | ks s => s == "default"

/-- The success filter of the x-returnable loop of addXReturn: an integer
status with 200 <= s < 300, or the literal default key. -/
def isSuccessKey2 : PKey → Bool
  | ki n => decide (200 ≤ n ∧ n < 300)
  | ks s => s == "default"

/-- resolveRef, part by part: the hash and empty parts are skipped, a part
that is not set returns null. -/
def resolveRefGo : Option PVal → List String → Option PVal
  | cur, [] => cur
  | cur, part :: rest =>
    if part = "#" ∨ part = "" then resolveRefGo cur rest
    else
      match cur with
      | some c =>
        match pidx c (ks part) with
        | some pnull => none
        | some w => resolveRefGo (some w) rest
        | none => none
      | none => none

/-- resolveRef: follows the slash-separated parts of a reference through the
document. -/
def resolveRef (spec : PVal) (ref : String) : Option PVal :=
  resolveRefGo (some spec) ((explodeOn '/' ref.data).map String.mk)

/-- isset plus strict string comparison on the type key of a schema node. -/
def typeIs (v : PVal) (t : String) : Bool :=
  match pidx v (ks "type") with
  | some (pstr s) => s == t
  | _ => false

/-- The result record built by collectMainRefs: the refs list and the
phpdoc array. -/
structure MainRefs where
  refs : List String
  phpdoc : PVal

/-- collectMainRefs: classifies a response schema into return-type names,
resolving a direct reference against the whole document first, then
dispatching on the declared type. -/
def collectMainRefs (schema spec : PVal) : MainRefs :=
  if pisset schema (ks "$ref") then
    let refStr := asStr (pqq schema (ks "$ref") pnull)
    let resolved := resolveRef spec refStr
    let resolvedTruthy := match resolved with | some v => phpTruthy v | none => false
    let resolvedVal := match resolved with | some v => v | none => pnull
    if resolvedTruthy && typeIs resolvedVal "array"
        && pissetPath resolvedVal [ks "items", ks "$ref"] then
      let cls := clsOf (asStr (pgetD resolvedVal [ks "items", ks "$ref"]))
      ⟨[cls ++ "[]"], parr [(ks "return", pstr (cls ++ "[]"))]⟩
    else
      let cls := clsOf refStr
      ⟨[cls], parr [(ks "return", pstr cls)]⟩
  else
    match pidx schema (ks "type") with
    | some (pstr "array") =>
      if pissetPath schema [ks "items", ks "$ref"] then
        let cls := clsOf (asStr (pgetD schema [ks "items", ks "$ref"]))
        ⟨[cls ++ "[]"], parr [(ks "return", pstr (cls ++ "[]"))]⟩
      else if pissetPath schema [ks "items", ks "type"] then
        let t := asStr (pgetD schema [ks "items", ks "type"])
        ⟨[t ++ "[]"], parr [(ks "return", pstr (t ++ "[]"))]⟩
      else ⟨[], parr []⟩
    | some (pstr "object") =>
      if pisset schema (ks "additionalProperties") then
        let ap := pqq schema (ks "additionalProperties") pnull
        if pisset ap (ks "$ref") then
          let cls := clsOf (asStr (pqq ap (ks "$ref") pnull))
          ⟨["array<string," ++ cls ++ ">"],
           parr [(ks "return", pstr ("array<string," ++ cls ++ ">"))]⟩
        else if typeIs ap "object" && pisset ap (ks "properties") then
          ⟨[], parr [(ks "return", pbool true)]⟩
        else if pisset ap (ks "type") then
          let t := asStr (pqq ap (ks "type") pnull)
          ⟨["array<string," ++ t ++ ">"],
           parr [(ks "return", pstr ("array<string," ++ t ++ ">"))]⟩
        else ⟨[], parr []⟩
      else if pisset schema (ks "properties") then ⟨["object"], parr [(ks "return", pstr "object")]⟩
      else ⟨["object"], parr [(ks "return", pstr "object")]⟩
    | some (pstr "boolean") => ⟨["boolean"], parr [(ks "return", pbool false)]⟩
    | some (pstr "string") => ⟨["string"], parr [(ks "return", pbool false)]⟩
    | some (pstr "integer") => ⟨["integer"], parr [(ks "return", pbool false)]⟩
    | some (pstr "number") => ⟨["float"], parr [(ks "return", pbool false)]⟩
    | _ => ⟨[], parr []⟩

/-- array_keys of resp.content ?? []. -/
def contentKeys (resp : PVal) : List PKey :=
  match pqq resp (ks "content") (parr []) with
  | parr l => l.map Prod.fst
  | _ => []

/-- Strict in_array of the pdf content type among the content keys. -/
def hasPdfKey (resp : PVal) : Bool := (contentKeys resp).contains (ks "application/pdf")

/-- The schema selected for a response: application/json first, then
application/problem+json, then the binary string stand-in for pdf content,
and otherwise null. -/
def respSchemaRaw (resp : PVal) : PVal :=
  if pissetPath resp [ks "content", ks "application/json", ks "schema"] then
    pgetD resp [ks "content", ks "application/json", ks "schema"]
  else if pissetPath resp [ks "content", ks "application/problem+json", ks "schema"] then
    pgetD resp [ks "content", ks "application/problem+json", ks "schema"]
  else if pissetPath resp [ks "content", ks "application/pdf", ks "schema"] || hasPdfKey resp then
    parr [(ks "type", pstr "string"), (ks "format", pstr "binary")]
  else pnull

/-- The special pagination check of addXReturn: the schema declares type
object and its properties.items entry carries a reference key directly. -/
def isItemsRefEnvelope (schema : PVal) : Bool :=
  typeIs schema "object" && pissetPath schema [ks "properties", ks "items", ks "$ref"]

/-- One response iteration of the return-types loop of addXReturn: the state
is the accumulated type list and the current phpdoc value. -/
def respStep (spec : PVal) (st : List String × PVal) (kv : PKey × PVal) :
    List String × PVal :=
  if !isSuccessKey1 kv.1 then st
  else
    let resp := kv.2
    let schema := respSchemaRaw resp
    if phpTruthy schema && (match schema with | parr _ => true | _ => false) then
      if isItemsRefEnvelope schema then
        let cls := clsOf (asStr (pgetD schema [ks "properties", ks "items", ks "$ref"]))
        (st.1 ++ [cls ++ "[]"], pnull)
      else
        let mr := collectMainRefs schema spec
        (st.1 ++ mr.refs, mr.phpdoc)
    else if hasPdfKey resp then (st.1 ++ ["string"], st.2)
    else (st.1 ++ ["void"], st.2)

/-- array_unique keeping first occurrences. -/
def dedupFirst (seen : List String) : List String → List String
  | [] => []
  | a :: t => if seen.contains a then dedupFirst seen t else a :: dedupFirst (a :: seen) t

/-- implode with the pipe separator. -/
def joinBar : List String → String
  | [] => ""
  | [a] => a
  | a :: t => a ++ "|" ++ joinBar t

/-- str_ends_with. -/
def phpEndsWith (s suffix : String) : Bool := suffix.data.isSuffixOf s.data

/-- Substring scan: does the pattern occur at some position. -/
def containsGo (pat : List Char) : List Char → Bool
  | [] => pat.isEmpty
  | c :: t => pat.isPrefixOf (c :: t) || containsGo pat t

/-- str_contains. -/
def phpContains (s sub : String) : Bool := containsGo sub.data s.data

/-- The whitespace class of the PCRE escape the script uses. -/
def isWsPcre (c : Char) : Bool :=
  c = ' ' || c = '\t' || c = '\n' || c = '\r' || c = '\x0b' || c = '\x0c'

/-- preg_replace of every whitespace run by one replacement character. -/
def collapseRuns (rep : Char) (inRun : Bool) : List Char → List Char
  | [] => []
  | c :: t =>
    if isWsPcre c then
      if inRun then collapseRuns rep true t else rep :: collapseRuns rep true t
    else c :: collapseRuns rep false t

/-- The tag kebab rewrite of addXReturn: whitespace runs become dashes. -/
def kebabTag (s : String) : String := String.mk (collapseRuns '-' false s.data)

/-- The operation id copied under its x key when truthy, the first kebab
annotation of the addXReturn loop body. -/
def addIdKebab (op : PVal) : PVal :=
  if phpTruthy (pqq op (ks "operationId") pnull) then
    pput op (ks "x-property-id-kebab") (pqq op (ks "operationId") pnull)
  else op

/-- Both kebab annotations at the head of the addXReturn loop body: the
operation id copy, then the first tag with whitespace runs turned into
dashes. -/
def addKebabs (op : PVal) : PVal :=
  if phpTruthy (pqq (addIdKebab op) (ks "tags") pnull) then
    pput (addIdKebab op) (ks "x-tag-id-kebab")
      (pstr (kebabTag (asStr (pgetD (addIdKebab op) [ks "tags", ki 0]))))
  else addIdKebab op

/-- The responses the loops of the addXReturn body iterate: the responses
key of the operation when it is set and an array, nothing otherwise. -/
def responsesOfV (op : PVal) : List (PKey × PVal) :=
  match pidx op (ks "responses") with
  | some (parr rs) => rs
  | _ => []

/-- The per-operation body of addXReturn: id and tag kebab keys, the
return-types accumulation over the responses, the void-to-null rewrite, the
union string, the display flag, the phpdoc value and the returnable flag.
The requestBody default removal of the source mutates a local copy of the
properties array and therefore has no effect on the document. -/
def processOperation (spec op : PVal) : PVal :=
  let op3 := pput (addKebabs op) (ks "x-return-types-displayReturn") (pbool false)
  let responses : List (PKey × PVal) := responsesOfV op3
  let st := responses.foldl (respStep spec) ([], parr [])
  let returnTypes :=
    if st.1.contains "void" && decide (1 < st.1.length) then
      st.1.map fun t => if t = "void" then "null" else t
    else st.1
  let op4 :=
    pput op3 (ks "x-return-types") (parr (reindex ((dedupFirst [] returnTypes).map pstr)))
  let unionTypes := returnTypes.map fun t => if phpEndsWith t "[]" then "array" else t
  let returnTypeUnion := joinBar (dedupFirst [] unionTypes)
  let op5 :=
    if (returnTypeUnion != "" && returnTypeUnion != "0") && returnTypeUnion != "object" then
      pput op4 (ks "x-return-types-union") (pstr returnTypeUnion)
    else op4
  let op6 :=
    if returnTypes.any (fun t => phpEndsWith t "[]" || phpContains t "array<") then
      pput op5 (ks "x-return-types-displayReturn") (pbool true)
    else op5
  let hasReturn := responses.any fun kv =>
    isSuccessKey2 kv.1 && phpTruthy (pqq kv.2 (ks "content") (parr []))
  let op7 := pput op6 (ks "x-phpdoc") st.2
  pput op7 (ks "x-returnable") (pbool hasReturn)

/-- addXReturn: per path and per method, the operation is replaced by its
processed form; parameters entries and non-array values are skipped; the
document evolves operation by operation and is itself the resolution
context passed to collectMainRefs. -/
def addXReturn (doc : PVal) : PVal :=
  let pathKeys : List PKey :=
    match pidx doc (ks "paths") with
    | some (parr l) => l.map Prod.fst
    | _ => []
  pathKeys.foldl
    (fun d pk =>
      let methodKeys : List PKey :=
        match pget d [ks "paths", pk] with
        | some (parr l) => l.map Prod.fst
        | _ => []
      methodKeys.foldl
        (fun d2 mk =>
          let op := pgetD d2 [ks "paths", pk, mk]
          match op with
          | parr _ =>
            if mk = ks "parameters" then d2
            else pputPath d2 [ks "paths", pk, mk] (processOperation d2 op)
          | _ => d2)
        d)
    doc

/-! ### Description formatting (preprocessDescription and its helpers) -/

theorem length_dropWhile_le {α : Type} (p : α → Bool) (l : List α) :
    (l.dropWhile p).length ≤ l.length :=
  (List.dropWhile_sublist _).length_le

/-- The trim character set of PHP trim. -/
def isTrimChar (c : Char) : Bool :=
  c = ' ' || c = '\t' || c = '\n' || c = '\r' || c = '\x00' || c = '\x0b'

/-- PHP trim on both ends. -/
def phpTrim (cs : List Char) : List Char :=
  ((cs.dropWhile isTrimChar).reverse.dropWhile isTrimChar).reverse

/-- The json-pointer decoding applied to a rewritten link url. -/
def urlDecodePointer (url : List Char) : List Char :=
  replace3 '%' '7' 'D' ['\x7d'] (replace3 '%' '7' 'B' ['\x7b'] (replace2 '~' '1' ['/'] url))

/-- One attempt to match the markdown-link pattern right after an opening
bracket: the link text runs to the first closing bracket, then an opening
parenthesis and a hash introduce the anchor, which runs to the first
closing parenthesis; on success returns the replacement text and the
remaining input. -/
def tryLink (t : List Char) : Option (List Char × List Char) :=
  let text := t.takeWhile fun c => c != ']'
  let rest1 := t.dropWhile fun c => c != ']'
  if text.isEmpty then none
  else
    match rest1 with
    | ']' :: '(' :: '#' :: u =>
      let anchorTail := u.takeWhile fun c => c != ')'
      let rest2 := u.dropWhile fun c => c != ')'
      if anchorTail.isEmpty then none
      else
        match rest2 with
        | ')' :: after =>
          some
            (text ++ ' ' :: '(' ::
              (urlDecodePointer ("https://docs.upsun.com/api/".data ++ '#' :: anchorTail) ++ [')']),
             after)
        | _ => none
    | _ => none

theorem tryLink_length {t r a : List Char} (h : tryLink t = some (r, a)) :
    a.length ≤ t.length := by
  unfold tryLink at h
  by_cases h1 : (t.takeWhile fun c => c != ']').isEmpty
  · simp [h1] at h
  · simp only [h1, Bool.false_eq_true, if_false] at h
    have hd1 : (t.dropWhile fun c => c != ']').length ≤ t.length :=
      length_dropWhile_le _ _
    split at h
    · rename_i u heq
      by_cases h2 : (u.takeWhile fun c => c != ')').isEmpty
      · simp [h2] at h
      · simp only [h2, Bool.false_eq_true, if_false] at h
        have hd2 : (u.dropWhile fun c => c != ')').length ≤ u.length :=
          length_dropWhile_le _ _
        split at h
        · rename_i after heq2
          have hu : u.length + 3 ≤ t.length := by
            rw [heq] at hd1
            simp at hd1
            omega
          have ha : a.length + 1 ≤ u.length := by
            cases h
            rw [heq2] at hd2
            simp at hd2
            omega
          omega
        · exact absurd h (by simp)
    · exact absurd h (by simp)

/-- preg_replace_callback over the markdown-link pattern: scans left to
right, replacing each match and continuing after it. -/
def linkRewrite : List Char → List Char
  | [] => []
  | c :: t =>
    if c = '[' then
      match h : tryLink t with
      | some pr => pr.1 ++ linkRewrite pr.2
      | none => '[' :: linkRewrite t
    else c :: linkRewrite t
termination_by cs => cs.length
decreasing_by
  all_goals simp_wf
  all_goals
    try (obtain ⟨r, a⟩ := pr; have := tryLink_length h; simp at this ⊢)
  all_goals omega

/-- The closing part of the br-tag pattern after the whitespace: an
optional slash and then the closing angle bracket. -/
def brClose (t : List Char) : Option (List Char) :=
  match t with
  | c :: d :: after =>
    if c = '/' ∧ d = '>' then some after
    else if c = '>' then some (d :: after)
    else none
  | [c] => if c = '>' then some [] else none
  | [] => none

theorem brClose_length {t a : List Char} (h : brClose t = some a) : a.length ≤ t.length := by
  cases t with
  | nil => simp [brClose] at h
  | cons c u =>
    cases u with
    | nil =>
      simp only [brClose] at h
      split at h
      · cases h; simp
      · simp at h
    | cons d after =>
      simp only [brClose] at h
      split at h
      · cases h; simp only [List.length_cons]; omega
      · split at h
        · cases h; simp
        · simp at h

/-- One attempt to match the br-tag pattern right after an opening angle
bracket, case-insensitively, with the optional whitespace skipped before
the closing part; returns the remaining input. -/
def brMatch : List Char → Option (List Char)
  | b :: r :: rest =>
    if (b = 'b' ∨ b = 'B') ∧ (r = 'r' ∨ r = 'R') then brClose (rest.dropWhile isWsPcre)
    else none
  | _ => none

theorem brMatch_length {t a : List Char} (h : brMatch t = some a) : a.length ≤ t.length := by
  cases t with
  | nil => simp [brMatch] at h
  | cons b u =>
    cases u with
    | nil => simp [brMatch] at h
    | cons r rest =>
      simp only [brMatch] at h
      by_cases hc : (b = 'b' ∨ b = 'B') ∧ (r = 'r' ∨ r = 'R')
      · rw [if_pos hc] at h
        have hd : (rest.dropWhile isWsPcre).length ≤ rest.length := length_dropWhile_le _ _
        have := brClose_length h
        simp only [List.length_cons]
        omega
      · rw [if_neg hc] at h
        simp at h

/-- preg_replace of the br-tag pattern by nothing: scans left to right,
removing each match. -/
def brRemove : List Char → List Char
  | [] => []
  | c :: t =>
    if c = '<' then
      match h : brMatch t with
      | some after => brRemove after
      | none => '<' :: brRemove t
    else c :: brRemove t
termination_by cs => cs.length
decreasing_by
  all_goals simp_wf
  all_goals try have hbml := brMatch_length h
  all_goals omega

/-- The single-break-character no-cut loop of the PHP wordwrap
implementation: a copy of the text in which some spaces are overwritten by
the break character, scanning positions left to right. -/
def wwLoop (text : List Char) (linelength : Nat) (current laststart lastspace : Nat)
    (newtext : List Char) : List Char :=
  if h : current < text.length then
    let c := text.get ⟨current, h⟩
    if c = '\n' then
      wwLoop text linelength (current + 1) (current + 1) (current + 1) newtext
    else if c = ' ' then
      if linelength ≤ current - laststart then
        wwLoop text linelength (current + 1) (current + 1) current (newtext.set current '\n')
      else wwLoop text linelength (current + 1) laststart current newtext
    else if linelength ≤ current - laststart ∧ laststart ≠ lastspace then
      wwLoop text linelength (current + 1) (lastspace + 1) lastspace (newtext.set lastspace '\n')
    else wwLoop text linelength (current + 1) laststart lastspace newtext
  else newtext
termination_by text.length - current

/-- wordwrap with a one-character break and no cutting, as the script calls
it. -/
def phpWordwrapNL (cs : List Char) (linelength : Nat) : List Char :=
  wwLoop cs linelength 0 0 0 cs

/-- The normalization preprocessDescription performs before wrapping: links
rewritten to absolute urls, %2F decoded, whitespace collapsed after a trim,
br tags removed. -/
def normalizeDescription (description : String) : String :=
  String.mk
    (brRemove
      (collapseRuns ' ' false
        (phpTrim (replace3 '%' '2' 'F' ['/'] (linkRewrite description.data)))))

/-- preprocessDescription: the normalized text wrapped at the given column
and split on the break character into the line array. -/
def preprocessDescription (description : String) (wordwrapLength : Nat) : List String :=
  (explodeOn '\n' (phpWordwrapNL (normalizeDescription description).data wordwrapLength)).map
    String.mk

/-- The join the specification speaks about: the line array glued back with
single spaces. -/
def joinWithSpaces : List String → String
  | [] => ""
  | [a] => a
  | a :: t => a ++ " " ++ joinWithSpaces t

/-! ### Generic lookup and write lemmas -/

theorem aget_aset_eq (l : List (PKey × PVal)) (k : PKey) (v : PVal) :
    aget (aset l k v) k = some v := by
  induction l with
  | nil => simp [aset, aget]
  | cons kv t ih =>
    obtain ⟨k', v'⟩ := kv
    by_cases hk : k' = k
    · simp [aset, hk, aget]
    · simp [aset, hk, aget, ih]

theorem aget_aset_ne (l : List (PKey × PVal)) {k k' : PKey} (v : PVal) (h : k' ≠ k) :
    aget (aset l k v) k' = aget l k' := by
  have hkk : ¬k = k' := fun hc => h hc.symm
  induction l with
  | nil => simp [aset, aget, hkk]
  | cons kv t ih =>
    obtain ⟨k0, v0⟩ := kv
    by_cases hk : k0 = k
    · subst hk
      simp [aset, aget, hkk]
    · simp [aset, hk, aget, ih]

theorem aset_aset_same (l : List (PKey × PVal)) (k : PKey) (v w : PVal) :
    aset (aset l k v) k w = aset l k w := by
  induction l with
  | nil => simp [aset]
  | cons kv t ih =>
    obtain ⟨k0, v0⟩ := kv
    by_cases hk : k0 = k
    · simp [aset, hk]
    · simp [aset, hk, ih]

theorem aget_map_keyed (l : List (PKey × PVal)) (g : PKey → PVal → PVal) (k : PKey) :
    aget (l.map fun kv => (kv.1, g kv.1 kv.2)) k =
      match aget l k with
      | some w => some (g k w)
      | none => none := by
  induction l with
  | nil => simp [aget]
  | cons kv t ih =>
    obtain ⟨k0, v0⟩ := kv
    by_cases hk : k0 = k
    · subst hk; simp [aget]
    · simp [aget, hk, ih]

theorem pqq_none {v : PVal} {k : PKey} {d : PVal} (h : pidx v k = none) : pqq v k d = d := by
  unfold pqq
  rw [h]

theorem aget_mem {l : List (PKey × PVal)} {k : PKey} {w : PVal} (h : aget l k = some w) :
    (k, w) ∈ l := by
  induction l with
  | nil => simp [aget] at h
  | cons kv t ih =>
    obtain ⟨k0, v0⟩ := kv
    simp only [aget] at h
    by_cases hk : k0 = k
    · subst hk
      simp at h
      subst h
      exact List.mem_cons_self _ _
    · simp [hk] at h
      exact List.mem_cons_of_mem _ (ih h)

/-! ### Lemmas about forceEmptyObjects (claim C9) -/

theorem forceEmptyList_eq_map (l : List (PKey × PVal)) (path : List PKey) :
    forceEmptyList l path = l.map fun kv => (kv.1, forceEmptyObjects kv.2 (path ++ [kv.1])) := by
  induction l with
  | nil => rw [forceEmptyList]; rfl
  | cons kv t ih => rw [forceEmptyList]; simp [ih]

theorem forceEmptyObjects_nil (path : List PKey) :
    forceEmptyObjects (parr []) path =
      if path ≠ [] ∧ path.getLast? = some (ks "BearerAuth") then parr [] else pobj := by
  rw [forceEmptyObjects]
  cases path with
  | nil => simp
  | cons k t =>
    simp only [List.isEmpty_cons, Bool.not_false, Bool.true_and, List.isEmpty_nil, Bool.true_and]
    rw [List.getLastD_eq_getLast?]
    cases hL : (k :: t).getLast? with
    | none =>
      exfalso
      have hne : k :: t ≠ [] := by simp
      rw [← List.getLast?_isSome, hL] at hne
      simp at hne
    | some y =>
      by_cases hy : y = ks "BearerAuth"
      · subst hy; simp [hL]
      · simp [hL, hy]

theorem forceEmptyObjects_cons {l : List (PKey × PVal)} (hl : l ≠ []) (path : List PKey) :
    forceEmptyObjects (parr l) path =
      parr (l.map fun kv => (kv.1, forceEmptyObjects kv.2 (path ++ [kv.1]))) := by
  rw [forceEmptyObjects]
  have h1 : l.isEmpty = false := by simp [List.isEmpty_iff, hl]
  simp only [h1, Bool.false_and, if_false]
  rw [forceEmptyList_eq_map]
  have h2 : (l.map fun kv => (kv.1, forceEmptyObjects kv.2 (path ++ [kv.1]))).isEmpty = false := by
    cases l with
    | nil => exact absurd rfl hl
    | cons kv t => simp
  simp [h2]

theorem force_pget (p : List PKey) :
    ∀ (doc : PVal) (pre : List PKey),
      (pget doc p = some (parr []) →
        pget (forceEmptyObjects doc pre) p =
          some
            (if pre ++ p ≠ [] ∧ (pre ++ p).getLast? = some (ks "BearerAuth") then parr []
             else pobj))
      ∧ (∀ l, l ≠ [] → pget doc p = some (parr l) →
          pget (forceEmptyObjects doc pre) p =
            some (parr (l.map fun kv => (kv.1, forceEmptyObjects kv.2 (pre ++ p ++ [kv.1]))))) := by
  induction p with
  | nil =>
    intro doc pre
    constructor
    · intro h
      simp only [pget] at h
      cases h
      rw [forceEmptyObjects_nil]
      simp [pget]
    · intro l hl h
      simp only [pget] at h
      cases h
      rw [forceEmptyObjects_cons hl]
      simp [pget]
  | cons k p' ih =>
    intro doc pre
    have main : ∀ X : PVal, pget doc (k :: p') = some X →
        ∃ l0 w, doc = parr l0 ∧ l0 ≠ [] ∧ aget l0 k = some w ∧ pget w p' = some X := by
      intro X h
      cases doc with
      | parr l0 =>
        simp only [pget, pidx] at h
        cases haget : aget l0 k with
        | none => rw [haget] at h; exact absurd h (by simp)
        | some w =>
          rw [haget] at h
          have hl0 : l0 ≠ [] := by
            intro hc
            subst hc
            simp [aget] at haget
          exact ⟨l0, w, rfl, hl0, haget, h⟩
      | pnull => simp [pget, pidx] at h
      | pbool b => simp [pget, pidx] at h
      | pint n => simp [pget, pidx] at h
      | pstr s => simp [pget, pidx] at h
      | pobj => simp [pget, pidx] at h
    constructor
    · intro h
      obtain ⟨l0, w, hdoc, hl0, haget, hrest⟩ := main _ h
      subst hdoc
      rw [forceEmptyObjects_cons hl0]
      simp only [pget, pidx]
      rw [aget_map_keyed l0 (fun key v => forceEmptyObjects v (pre ++ [key])) k, haget]
      have := ((ih w (pre ++ [k])).1) hrest
      simpa using this
    · intro l hl h
      obtain ⟨l0, w, hdoc, hl0, haget, hrest⟩ := main _ h
      subst hdoc
      rw [forceEmptyObjects_cons hl0]
      simp only [pget, pidx]
      rw [aget_map_keyed l0 (fun key v => forceEmptyObjects v (pre ++ [key])) k, haget]
      have := ((ih w (pre ++ [k])).2) l hl hrest
      simpa using this

theorem force_empty_inv :
    ∀ (n : Nat) (doc : PVal) (pre q : List PKey), doc.psize ≤ n →
      pget (forceEmptyObjects doc pre) q = some (parr []) →
      pre ++ q ≠ [] ∧ (pre ++ q).getLast? = some (ks "BearerAuth") := by
  intro n
  induction n with
  | zero =>
    intro doc pre q hsz
    exfalso
    cases doc <;> simp [PVal.psize] at hsz
  | succ n ihn =>
    intro doc pre q hsz h
    cases doc with
    | parr l =>
      by_cases hl : l = []
      · subst hl
        rw [forceEmptyObjects_nil] at h
        by_cases hc : pre ≠ [] ∧ pre.getLast? = some (ks "BearerAuth")
        · rw [if_pos hc] at h
          cases q with
          | nil => simpa using hc
          | cons k q' => simp [pget, pidx, aget] at h
        · rw [if_neg hc] at h
          cases q with
          | nil => simp [pget] at h
          | cons k q' => simp [pget, pidx] at h
      · rw [forceEmptyObjects_cons hl] at h
        cases q with
        | nil =>
          simp only [pget, Option.some.injEq] at h
          cases l with
          | nil => exact absurd rfl hl
          | cons kv t => simp at h
        | cons k q' =>
          simp only [pget, pidx] at h
          rw [aget_map_keyed l (fun key v => forceEmptyObjects v (pre ++ [key])) k] at h
          cases haget : aget l k with
          | none => rw [haget] at h; exact absurd h (by simp)
          | some w =>
            rw [haget] at h
            have hmem := aget_mem haget
            have hw : w.psize ≤ n := by
              have h2 : w.psize < psizeList l := by simpa using psize_lt_of_mem hmem
              simp only [PVal.psize] at hsz
              omega
            have := ihn w (pre ++ [k]) q' hw h
            simpa using this
    | pnull =>
      cases q with
      | nil => simp [forceEmptyObjects, pget] at h
      | cons k q' => simp [forceEmptyObjects, pget, pidx] at h
    | pbool b =>
      cases q with
      | nil => simp [forceEmptyObjects, pget] at h
      | cons k q' => simp [forceEmptyObjects, pget, pidx] at h
    | pint m =>
      cases q with
      | nil => simp [forceEmptyObjects, pget] at h
      | cons k q' => simp [forceEmptyObjects, pget, pidx] at h
    | pstr s =>
      cases q with
      | nil => simp [forceEmptyObjects, pget] at h
      | cons k q' => simp [forceEmptyObjects, pget, pidx] at h
    | pobj =>
      cases q with
      | nil => simp [forceEmptyObjects, pget] at h
      | cons k q' => simp [forceEmptyObjects, pget, pidx] at h

/-! ### Claim theorems -/

/-- C9: forceEmptyObjects rewrites every structurally empty mapping in the
tree into the empty-object marker, except a node whose last path segment is
the BearerAuth key, which remains an empty array; the entries of non-empty
nodes are preserved under their keys (recursively rewritten); and the only
empty arrays in the output sit at a path whose last segment is BearerAuth. -/
theorem C9_forceEmptyObjects_empty_mappings (doc : PVal) (p : List PKey) :
    (pget doc p = some (parr []) →
      pget (forceEmptyObjects doc []) p =
        some (if p ≠ [] ∧ p.getLast? = some (ks "BearerAuth") then parr [] else pobj))
    ∧ (∀ l, l ≠ [] → pget doc p = some (parr l) →
        pget (forceEmptyObjects doc []) p =
          some (parr (l.map fun kv => (kv.1, forceEmptyObjects kv.2 (p ++ [kv.1])))))
    ∧ (pget (forceEmptyObjects doc []) p = some (parr []) →
        p ≠ [] ∧ p.getLast? = some (ks "BearerAuth")) := by
  refine ⟨?_, ?_, ?_⟩
  · intro h
    have := (force_pget p doc []).1 h
    simpa using this
  · intro l hl h
    have := (force_pget p doc []).2 l hl h
    simpa using this
  · intro h
    have := force_empty_inv doc.psize doc [] p (le_refl _) h
    simpa using this

/-- Witness for C9 on a concrete document holding one empty mapping at a
path not ending in BearerAuth and one ending there. -/
theorem C9_forceEmptyObjects_empty_mappings_witness :
    (pget
        (forceEmptyObjects (parr [(ks "a", parr []), (ks "BearerAuth", parr [])]) [])
        [ks "a"] =
      some
        (if [ks "a"] ≠ [] ∧ [ks "a"].getLast? = some (ks "BearerAuth") then parr []
         else pobj))
    ∧ (pget
          (forceEmptyObjects (parr [(ks "a", parr []), (ks "BearerAuth", parr [])]) [])
          [ks "BearerAuth"] =
        some
          (if [ks "BearerAuth"] ≠ [] ∧ [ks "BearerAuth"].getLast? = some (ks "BearerAuth")
           then parr [] else pobj)) :=
  ⟨(C9_forceEmptyObjects_empty_mappings
      (parr [(ks "a", parr []), (ks "BearerAuth", parr [])]) [ks "a"]).1 rfl,
   (C9_forceEmptyObjects_empty_mappings
      (parr [(ks "a", parr []), (ks "BearerAuth", parr [])]) [ks "BearerAuth"]).1 rfl⟩

/-- A document holding one snake_case schema name and one reference to it,
the failing input of claim C5. -/
def pascalDoc : PVal :=
  parr
    [(ks "components",
      parr [(ks "schemas", parr [(ks "api_token", parr [(ks "type", pstr "object")])])]),
     (ks "paths",
      parr
        [(ks "/me",
          parr
            [(ks "get",
              parr
                [(ks "responses",
                  parr
                    [(ki 200,
                      parr
                        [(ks "content",
                          parr
                            [(ks "application/json",
                              parr
                                [(ks "schema",
                                  parr
                                    [(ks "$ref",
                                      pstr "#/components/schemas/api_token")])])])])])])])])]

/-- C5: the claim says a schema named api_token is renamed ApiToken with
every reference rewritten, as the doc comment of toPascalCase promises; the
implementation only substitutes the five literal acronyms and leaves
api_token untouched, so the whole document passes through unchanged. -/
theorem C5_normalize_leaves_api_token :
    normalizeSchemaNamesToPascalCase pascalDoc = pascalDoc
    ∧ toPascalCase "api_token" = "api_token"
    ∧ pget (normalizeSchemaNamesToPascalCase pascalDoc)
        [ks "components", ks "schemas", ks "api_token"] = some (parr [(ks "type", pstr "object")])
    ∧ pget (normalizeSchemaNamesToPascalCase pascalDoc)
        [ks "paths", ks "/me", ks "get", ks "responses", ki 200, ks "content",
         ks "application/json", ks "schema", ks "$ref"] =
      some (pstr "#/components/schemas/api_token") :=
  ⟨rfl, rfl, rfl, rfl⟩

/-! ### Lemmas about cleanRequiredProperties (claims C6 and C10) -/

/-- A required list as decoded from json: sequential integer keys and
string entries. -/
def requiredEntries (names : List String) : List (PKey × PVal) :=
  names.enum.map fun p => (ki (p.1 : Int), pstr p.2)

theorem aset_self {l : List (PKey × PVal)} {k : PKey} {v : PVal} (h : aget l k = some v) :
    aset l k v = l := by
  induction l with
  | nil => simp [aget] at h
  | cons kv t ih =>
    obtain ⟨k0, v0⟩ := kv
    simp only [aget] at h
    by_cases hk : k0 = k
    · subst hk
      simp at h
      subst h
      simp [aset]
    · simp [hk] at h
      simp [aset, hk, ih h]

theorem filter_eq_self_of_length {α : Type} (p : α → Bool) (l : List α)
    (h : (l.filter p).length = l.length) : l.filter p = l := by
  induction l with
  | nil => simp
  | cons a t ih =>
    by_cases hp : p a
    · simp only [List.filter_cons, hp, if_true, List.length_cons] at h ⊢
      rw [ih (by omega)]
    · simp only [List.filter_cons, hp, Bool.false_eq_true, if_false, List.length_cons] at h
      have := List.length_filter_le p t
      omega

theorem filter_enum_map_snd (g : PVal → Bool) (names : List String) :
    ∀ i : Nat,
      (((names.enumFrom i).map fun p => ((ki (p.1 : Int), pstr p.2) : PKey × PVal)).filter
          fun kv => g kv.2).map Prod.snd =
        (names.filter fun n => g (pstr n)).map pstr := by
  induction names with
  | nil => intro i; simp
  | cons n t ih =>
    intro i
    simp only [List.enumFrom, List.map_cons, List.filter_cons]
    by_cases hg : g (pstr n)
    · simp only [hg, if_true, List.map_cons, ih (i + 1)]
    · simp only [hg, Bool.false_eq_true, if_false, ih (i + 1)]

theorem reindex_enumFrom (ns : List String) :
    ∀ i : Nat,
      ((ns.map pstr).enumFrom i).map (fun p => ((ki (p.1 : Int), p.2) : PKey × PVal)) =
        (ns.enumFrom i).map fun p => (ki (p.1 : Int), pstr p.2) := by
  induction ns with
  | nil => intro i; simp
  | cons n t ih => intro i; simp only [List.map_cons, List.enumFrom, List.map_cons, ih (i + 1)]

theorem reindex_map_pstr (ns : List String) : reindex (ns.map pstr) = requiredEntries ns := by
  unfold reindex requiredEntries List.enum
  exact reindex_enumFrom ns 0

/-- The names kept by the required filter of a route whose properties value
is P. -/
def keptRequired (P : PVal) (names : List String) : List String :=
  names.filter fun n => keepRequired P (pstr n)

theorem cleanRoute_frame (S : List (PKey × PVal)) (rt rt' : String) (h : rt' ≠ rt) :
    aget (cleanRoute S rt) (ks rt') = aget S (ks rt') := by
  have hkey : ks rt' ≠ ks rt := by simpa using h
  unfold cleanRoute
  split
  · rfl
  · dsimp only
    split
    · exact aget_aset_ne _ _ hkey
    · rfl

theorem cleanRoute_self (S : List (PKey × PVal)) (rt : String) (route : List (PKey × PVal))
    (names : List String)
    (hroute : aget S (ks rt) = some (parr route))
    (hreq : aget route (ks "required") = some (parr (requiredEntries names))) :
    aget (cleanRoute S rt) (ks rt) =
      some
        (parr
          (aset route (ks "required")
            (parr
              (requiredEntries
                (keptRequired (pqq (parr route) (ks "properties") (parr [])) names))))) := by
  have hisset : pissetPath (parr S) [ks rt, ks "required"] = true := by
    simp only [pissetPath, pget, pidx, hroute, hreq]
  have hval : routeVal S rt = parr route := by simp [routeVal, hroute]
  have hreqv : pqq (parr route) (ks "required") (parr []) = parr (requiredEntries names) := by
    simp [pqq, pidx, hreq]
  set P := pqq (parr route) (ks "properties") (parr []) with hP
  have hsnd :
      ((requiredEntries names).filter fun kv => keepRequired P kv.2).map Prod.snd =
        (keptRequired P names).map pstr := by
    unfold requiredEntries keptRequired List.enum
    exact filter_enum_map_snd (fun v => keepRequired P v) names 0
  have hlen :
      ((requiredEntries names).filter fun kv => keepRequired P kv.2).length =
        (keptRequired P names).length := by
    have := congrArg List.length hsnd
    simpa using this
  have hlen2 : (requiredEntries names).length = names.length := by
    simp [requiredEntries]
  unfold cleanRoute
  rw [hisset]
  simp only [Bool.not_true, Bool.false_eq_true, if_false, hval, hreqv]
  by_cases hrem :
      0 < (requiredEntries names).length -
        ((requiredEntries names).filter fun kv => keepRequired P kv.2).length
  · rw [if_pos hrem]
    rw [aget_aset_eq]
    rw [hsnd, reindex_map_pstr]
    rfl
  · rw [if_neg hrem]
    have hkeptlen : (keptRequired P names).length = names.length := by
      have := List.length_filter_le (fun kv => keepRequired P kv.2) (requiredEntries names)
      omega
    have hkept : keptRequired P names = names :=
      filter_eq_self_of_length _ _ hkeptlen
    rw [hroute, hkept]
    rw [aset_self hreq]

/-- The final value of one route after cleanRequiredProperties, for any
route of the group, under the decoded shapes of its required list. -/
theorem cleanRequiredProperties_at (S : List (PKey × PVal)) (rt : String)
    (route : List (PKey × PVal)) (names : List String)
    (hmem : rt ∈ routeTypes)
    (hroute : aget S (ks rt) = some (parr route))
    (hreq : aget route (ks "required") = some (parr (requiredEntries names))) :
    aget (cleanRequiredProperties S) (ks rt) =
      some
        (parr
          (aset route (ks "required")
            (parr
              (requiredEntries
                (keptRequired (pqq (parr route) (ks "properties") (parr [])) names))))) := by
  simp only [routeTypes, List.mem_cons, List.not_mem_nil, or_false] at hmem
  have hfold :
      cleanRequiredProperties S =
        cleanRoute (cleanRoute (cleanRoute S "ProxyRoute") "RedirectRoute") "UpstreamRoute" := by
    rfl
  rcases hmem with rfl | rfl | rfl
  · rw [hfold, cleanRoute_frame _ _ _ (by decide), cleanRoute_frame _ _ _ (by decide)]
    exact cleanRoute_self S _ route names hroute hreq
  · rw [hfold, cleanRoute_frame _ _ _ (by decide)]
    have h1 : aget (cleanRoute S "ProxyRoute") (ks "RedirectRoute") = some (parr route) := by
      rw [cleanRoute_frame _ _ _ (by decide)]
      exact hroute
    exact cleanRoute_self _ _ route names h1 hreq
  · have h1 :
        aget (cleanRoute (cleanRoute S "ProxyRoute") "RedirectRoute") (ks "UpstreamRoute") =
          some (parr route) := by
      rw [cleanRoute_frame _ _ _ (by decide), cleanRoute_frame _ _ _ (by decide)]
      exact hroute
    rw [hfold]
    exact cleanRoute_self _ _ route names h1 hreq

/-- C6 (amended): for a route variant of the group whose required list
decodes to string names, cleanRequiredProperties keeps exactly those names
whose property definition exists, is truthy and carries no truthy nullable
flag — a name is removed exactly when its definition is missing, falsy, or
nullable — and the kept names stay in their relative order, the result
being the filter of the original list; afterwards no kept name has a
truthy nullable flag. -/
theorem C6_cleanRequired_is_filter (S : List (PKey × PVal)) (rt : String)
    (route : List (PKey × PVal)) (names : List String)
    (hmem : rt ∈ routeTypes)
    (hroute : aget S (ks rt) = some (parr route))
    (hreq : aget route (ks "required") = some (parr (requiredEntries names))) :
    aget (cleanRequiredProperties S) (ks rt) =
      some
        (parr
          (aset route (ks "required")
            (parr
              (requiredEntries
                (keptRequired (pqq (parr route) (ks "properties") (parr [])) names)))))
    ∧ ∀ n ∈ keptRequired (pqq (parr route) (ks "properties") (parr [])) names,
        phpTruthy
          (pqq (pqq (pqq (parr route) (ks "properties") (parr [])) (ks n) pnull)
            (ks "nullable") (pbool false)) = false := by
  constructor
  · exact cleanRequiredProperties_at S rt route names hmem hroute hreq
  · intro n hn
    have hkeep := List.of_mem_filter hn
    unfold keepRequired at hkeep
    simp only [Bool.and_eq_true, Bool.not_eq_true'] at hkeep
    exact hkeep.2

/-- A demonstration route for the required cleaner: a nullable id, a plain
name, both required. -/
def reqDemoRoute : List (PKey × PVal) :=
  [(ks "required", parr (requiredEntries ["id", "name"])),
   (ks "properties",
    parr
      [(ks "id", parr [(ks "nullable", pbool true)]),
       (ks "name", parr [(ks "type", pstr "string")])])]

/-- The schemas map of the demonstration route. -/
def reqDemoSchemas : List (PKey × PVal) := [(ks "ProxyRoute", parr reqDemoRoute)]

/-- Witness for C6 on the demonstration route. -/
theorem C6_cleanRequired_is_filter_witness :
    aget (cleanRequiredProperties reqDemoSchemas) (ks "ProxyRoute") =
      some
        (parr
          (aset reqDemoRoute (ks "required")
            (parr
              (requiredEntries
                (keptRequired (pqq (parr reqDemoRoute) (ks "properties") (parr []))
                  ["id", "name"]))))) :=
  (C6_cleanRequired_is_filter reqDemoSchemas "ProxyRoute" reqDemoRoute ["id", "name"]
    (by decide) rfl rfl).1

/-- A route whose required list names a property that has no definition. -/
def ghostRoute : List (PKey × PVal) :=
  [(ks "required", parr (requiredEntries ["ghost"])), (ks "properties", parr [])]

/-- The schemas map of the ghost route. -/
def ghostSchemas : List (PKey × PVal) := [(ks "ProxyRoute", parr ghostRoute)]

/-- Counterexample to C6 as stated: the ghost name has no property
definition at all — in particular none with nullable = true — yet
cleanRequiredProperties removes it, so removal is not exactly the
nullable-flagged names. -/
theorem C6_cleanRequired_counterexample :
    pget (parr (cleanRequiredProperties ghostSchemas)) [ks "ProxyRoute", ks "required"] =
      some (parr [])
    ∧ pget (parr ghostSchemas) [ks "ProxyRoute", ks "properties", ks "ghost"] = none :=
  ⟨rfl, rfl⟩

/-- C10: a required name with no entry at all in the properties map of its
variant is also removed by cleanRequiredProperties: removal is not limited
to names whose property is nullable. -/
theorem C10_missing_required_removed (S : List (PKey × PVal)) (rt : String)
    (route : List (PKey × PVal)) (names : List String) (name : String)
    (hmem : rt ∈ routeTypes)
    (hroute : aget S (ks rt) = some (parr route))
    (hreq : aget route (ks "required") = some (parr (requiredEntries names)))
    (hmiss : pidx (pqq (parr route) (ks "properties") (parr [])) (ks name) = none) :
    aget (cleanRequiredProperties S) (ks rt) =
      some
        (parr
          (aset route (ks "required")
            (parr
              (requiredEntries
                (keptRequired (pqq (parr route) (ks "properties") (parr [])) names)))))
    ∧ name ∉ keptRequired (pqq (parr route) (ks "properties") (parr [])) names := by
  constructor
  · exact cleanRequiredProperties_at S rt route names hmem hroute hreq
  · intro hn
    have hkeep := List.of_mem_filter hn
    have hfalse : keepRequired (pqq (parr route) (ks "properties") (parr [])) (pstr name) =
        false := by
      unfold keepRequired
      dsimp only
      rw [pqq_none hmiss]
      rfl
    rw [hfalse] at hkeep
    exact absurd hkeep (by simp)

/-- Witness for C10 on the ghost route. -/
theorem C10_missing_required_removed_witness :
    aget (cleanRequiredProperties ghostSchemas) (ks "ProxyRoute") =
      some
        (parr
          (aset ghostRoute (ks "required")
            (parr
              (requiredEntries
                (keptRequired (pqq (parr ghostRoute) (ks "properties") (parr [])) ["ghost"])))))
    ∧ "ghost" ∉ keptRequired (pqq (parr ghostRoute) (ks "properties") (parr [])) ["ghost"] :=
  C10_missing_required_removed ghostSchemas "ProxyRoute" ghostRoute ["ghost"] "ghost"
    (by decide) rfl rfl rfl

/-! ### Lemmas about fixAllRefsWithAllOf (claim C3) -/

theorem aget_singleton_ne {k k' : PKey} {v : PVal} (h : ¬k = k') : aget [(k, v)] k' = none := by
  simp [aget, h]

theorem aget_two_ne {k1 k2 k' : PKey} {v1 v2 : PVal} (h1 : ¬k1 = k') (h2 : ¬k2 = k') :
    aget [(k1, v1), (k2, v2)] k' = none := by
  simp [aget, h1, h2]

theorem aget_two_snd {k1 k2 : PKey} {v1 v2 : PVal} (h : ¬k1 = k2) :
    aget [(k1, v1), (k2, v2)] k2 = some v2 := by
  simp [aget, h]

theorem fixRefsList_eq_map (l : List (PKey × PVal)) :
    fixRefsList l = l.map fun kv => (kv.1, fixAllRefsWithAllOf kv.2) := by
  induction l with
  | nil => rw [fixRefsList]; rfl
  | cons kv t ih => rw [fixRefsList]; simp [ih]

theorem fix_parr_transform {l : List (PKey × PVal)}
    (h : refIsset l = true ∧ (refExtras l).isEmpty = false) :
    fixAllRefsWithAllOf (parr l) =
      parr
        [(ks "allOf",
          parr
            [(ki 0,
              fixAllRefsWithAllOf (parr [(ks "$ref", pqq (parr l) (ks "$ref") pnull)])),
             (ki 1, fixAllRefsWithAllOf (parr (refExtras l)))])] := by
  rw [fixAllRefsWithAllOf]
  rw [dif_pos h]

theorem fix_parr_plain {l : List (PKey × PVal)}
    (h : ¬(refIsset l = true ∧ (refExtras l).isEmpty = false)) :
    fixAllRefsWithAllOf (parr l) = parr (fixRefsList l) := by
  rw [fixAllRefsWithAllOf]
  rw [dif_neg h]

theorem fix_scalar {v : PVal} (h : ∀ l, v ≠ parr l) : fixAllRefsWithAllOf v = v := by
  cases v with
  | parr l => exact absurd rfl (h l)
  | pnull => rw [fixAllRefsWithAllOf]; exact fun l hc => PVal.noConfusion hc
  | pbool b => rw [fixAllRefsWithAllOf]; exact fun l hc => PVal.noConfusion hc
  | pint n => rw [fixAllRefsWithAllOf]; exact fun l hc => PVal.noConfusion hc
  | pstr s => rw [fixAllRefsWithAllOf]; exact fun l hc => PVal.noConfusion hc
  | pobj => rw [fixAllRefsWithAllOf]; exact fun l hc => PVal.noConfusion hc

theorem fix_refPart (r : PVal) :
    fixAllRefsWithAllOf (parr [(ks "$ref", r)]) =
      parr [(ks "$ref", fixAllRefsWithAllOf r)] := by
  have hext : refExtras [(ks "$ref", r)] = [] := by simp [refExtras]
  have hcond : ¬(refIsset [(ks "$ref", r)] = true ∧
      (refExtras [(ks "$ref", r)]).isEmpty = false) := by
    intro hc
    rw [hext] at hc
    simp at hc
  rw [fix_parr_plain hcond]
  rw [fixRefsList, fixRefsList]

theorem refIsset_of_aget {l : List (PKey × PVal)} {r : PVal}
    (h : aget l (ks "$ref") = some r) (hr : r ≠ pnull) : refIsset l = true := by
  unfold refIsset
  rw [h]
  cases r <;> simp_all

/-- The reachable-node part of the normalization: after the pass, no
mapping node found at a key path carries a set reference key beside a
sibling key. -/
theorem fix_no_sibling :
    ∀ (n : Nat) (v : PVal), v.psize ≤ n → ∀ (p : List PKey) (l : List (PKey × PVal)),
      pget (fixAllRefsWithAllOf v) p = some (parr l) →
      ¬(refIsset l = true ∧ ∃ kv ∈ l, kv.1 ≠ ks "$ref") := by
  intro n
  induction n with
  | zero =>
    intro v hsz
    exfalso
    cases v <;> simp [PVal.psize] at hsz
  | succ n ihn =>
    intro v hsz p l hget
    cases v with
    | pnull =>
      rw [fix_scalar (by intro l0 hc; cases hc)] at hget
      cases p with
      | nil => simp [pget] at hget
      | cons k p' => simp [pget, pidx] at hget
    | pbool b =>
      rw [fix_scalar (by intro l0 hc; cases hc)] at hget
      cases p with
      | nil => simp [pget] at hget
      | cons k p' => simp [pget, pidx] at hget
    | pint m =>
      rw [fix_scalar (by intro l0 hc; cases hc)] at hget
      cases p with
      | nil => simp [pget] at hget
      | cons k p' => simp [pget, pidx] at hget
    | pstr s =>
      rw [fix_scalar (by intro l0 hc; cases hc)] at hget
      cases p with
      | nil => simp [pget] at hget
      | cons k p' => simp [pget, pidx] at hget
    | pobj =>
      rw [fix_scalar (by intro l0 hc; cases hc)] at hget
      cases p with
      | nil => simp [pget] at hget
      | cons k p' => simp [pget, pidx] at hget
    | parr l0 =>
      have hsz0 : psizeList l0 ≤ n := by
        simp only [PVal.psize] at hsz
        omega
      by_cases hcond : refIsset l0 = true ∧ (refExtras l0).isEmpty = false
      · rw [fix_parr_transform hcond] at hget
        have hr : aget l0 (ks "$ref") = some (pqq (parr l0) (ks "$ref") pnull) :=
          refIsset_spec hcond.1
        have hrsize : (pqq (parr l0) (ks "$ref") pnull).psize < psizeList l0 + 1 := by
          have := aget_psize_le hr
          omega
        have hesize : psizeList (refExtras l0) < psizeList l0 := by
          have := psizeList_extras_split hr
          have := psize_pos (pqq (parr l0) (ks "$ref") pnull)
          omega
        cases p with
        | nil =>
          simp only [pget, Option.some.injEq] at hget
          cases hget
          intro hc
          simp [refIsset, aget] at hc
        | cons k p' =>
          simp only [pget, pidx] at hget
          by_cases hk : k = ks "allOf"
          · subst hk
            rw [show aget
                  [(ks "allOf",
                    parr
                      [(ki 0,
                        fixAllRefsWithAllOf
                          (parr [(ks "$ref", pqq (parr l0) (ks "$ref") pnull)])),
                       (ki 1, fixAllRefsWithAllOf (parr (refExtras l0)))])]
                  (ks "allOf") = some _ from rfl] at hget
            cases p' with
            | nil =>
              simp only [pget, Option.some.injEq] at hget
              cases hget
              intro hc
              simp [refIsset, aget] at hc
            | cons k2 p'' =>
              simp only [pget, pidx] at hget
              by_cases hk2 : k2 = ki 0
              · subst hk2
                rw [show aget
                      [(ki 0,
                        fixAllRefsWithAllOf
                          (parr [(ks "$ref", pqq (parr l0) (ks "$ref") pnull)])),
                       (ki 1, fixAllRefsWithAllOf (parr (refExtras l0)))] (ki 0) =
                      some _ from rfl] at hget
                rw [fix_refPart] at hget
                cases p'' with
                | nil =>
                  simp only [pget, Option.some.injEq] at hget
                  cases hget
                  intro hc
                  obtain ⟨kv, hkv, hne⟩ := hc.2
                  simp at hkv
                  exact hne (by simp [hkv])
                | cons k3 p''' =>
                  simp only [pget, pidx] at hget
                  by_cases hk3 : k3 = ks "$ref"
                  · subst hk3
                    rw [show aget
                          [(ks "$ref",
                            fixAllRefsWithAllOf (pqq (parr l0) (ks "$ref") pnull))]
                          (ks "$ref") = some _ from rfl] at hget
                    exact ihn _ (by omega) _ _ hget
                  · rw [aget_singleton_ne (fun hc => hk3 hc.symm)] at hget
                    exact absurd hget (by simp)
              · by_cases hk2b : k2 = ki 1
                · subst hk2b
                  rw [aget_two_snd (by decide)] at hget
                  refine ihn (parr (refExtras l0)) ?_ _ _ hget
                  simp only [PVal.psize]
                  omega
                · rw [aget_two_ne (fun hc => hk2 hc.symm) (fun hc => hk2b hc.symm)] at hget
                  exact absurd hget (by simp)
          · rw [aget_singleton_ne (fun hc => hk hc.symm)] at hget
            exact absurd hget (by simp)
      · rw [fix_parr_plain (by exact hcond), fixRefsList_eq_map] at hget
        cases p with
        | nil =>
          simp only [pget, Option.some.injEq] at hget
          cases hget
          intro hc
          obtain ⟨hset, kv, hkv, hne⟩ := hc
          unfold refIsset at hset
          rw [aget_map_keyed l0 (fun _ w => fixAllRefsWithAllOf w) (ks "$ref")] at hset
          cases hag : aget l0 (ks "$ref") with
          | none => rw [hag] at hset; simp at hset
          | some r0 =>
            rw [hag] at hset
            by_cases hr0 : r0 = pnull
            · subst hr0
              have hfix : fixAllRefsWithAllOf pnull = pnull :=
                fix_scalar fun l1 hc1 => PVal.noConfusion hc1
              simp [hfix] at hset
            · have hIss : refIsset l0 = true := refIsset_of_aget hag hr0
              have hext : (refExtras l0).isEmpty = true := by
                by_cases he : (refExtras l0).isEmpty = false
                · exact absurd ⟨hIss, he⟩ hcond
                · simpa using he
              have hallref : ∀ kv0 ∈ l0, kv0.1 = ks "$ref" := by
                intro kv0 hkv0
                have hnil : refExtras l0 = [] := by
                  rw [List.isEmpty_iff] at hext
                  exact hext
                have := List.filter_eq_nil_iff.mp hnil kv0 hkv0
                simpa using this
              obtain ⟨kv0, hkv0, hgkv⟩ := List.mem_map.mp hkv
              have := hallref kv0 hkv0
              apply hne
              rw [← hgkv]
              simpa using this
        | cons k p' =>
          simp only [pget, pidx] at hget
          rw [aget_map_keyed l0 (fun _ w => fixAllRefsWithAllOf w) k] at hget
          cases hag : aget l0 k with
          | none => rw [hag] at hget; exact absurd hget (by simp)
          | some w =>
            rw [hag] at hget
            have hmem := aget_mem hag
            have hwsz : w.psize ≤ n := by
              have h2 : w.psize < psizeList l0 := by simpa using psize_lt_of_mem hmem
              omega
            exact ihn w hwsz _ _ hget

/-- C3 (amended): after fixAllRefsWithAllOf has run, no mapping node
reachable at a key path carries a set (non-null, as PHP isset tests)
reference key together with a sibling key; and every node that mixes a set
reference with extra keys is replaced by the allOf of the reference-only
copy and the extra keys, both further normalized. A node whose reference
key holds null fails the isset guard and may keep its siblings, which is
the one correction to the claim as stated. -/
theorem C3_fixRefs_normalized (v : PVal) :
    (∀ (p : List PKey) (l : List (PKey × PVal)),
      pget (fixAllRefsWithAllOf v) p = some (parr l) →
      ¬(refIsset l = true ∧ ∃ kv ∈ l, kv.1 ≠ ks "$ref"))
    ∧ (∀ l : List (PKey × PVal), refIsset l = true → (refExtras l).isEmpty = false →
        fixAllRefsWithAllOf (parr l) =
          parr
            [(ks "allOf",
              parr
                [(ki 0,
                  fixAllRefsWithAllOf (parr [(ks "$ref", pqq (parr l) (ks "$ref") pnull)])),
                 (ki 1, fixAllRefsWithAllOf (parr (refExtras l)))])]) := by
  constructor
  · intro p l h
    exact fix_no_sibling v.psize v (le_refl _) p l h
  · intro l h1 h2
    exact fix_parr_transform ⟨h1, h2⟩

/-- Witness for C3 on a node mixing a reference with a description. -/
theorem C3_fixRefs_normalized_witness :
    fixAllRefsWithAllOf
        (parr [(ks "$ref", pstr "#/components/schemas/Foo"), (ks "description", pstr "x")]) =
      parr
        [(ks "allOf",
          parr
            [(ki 0,
              fixAllRefsWithAllOf
                (parr
                  [(ks "$ref",
                    pqq
                      (parr
                        [(ks "$ref", pstr "#/components/schemas/Foo"),
                         (ks "description", pstr "x")])
                      (ks "$ref") pnull)])),
             (ki 1,
              fixAllRefsWithAllOf
                (parr
                  (refExtras
                    [(ks "$ref", pstr "#/components/schemas/Foo"),
                     (ks "description", pstr "x")])))])] :=
  (C3_fixRefs_normalized pnull).2
    [(ks "$ref", pstr "#/components/schemas/Foo"), (ks "description", pstr "x")]
    (by decide) (by decide)

/-- Counterexample to C3 as stated: a node whose reference key holds null
fails the isset guard of fixAllRefsWithAllOf, passes through unchanged,
and still carries the reference key together with a sibling key. -/
theorem C3_fixRefs_counterexample :
    fixAllRefsWithAllOf (parr [(ks "$ref", pnull), (ks "description", pstr "x")]) =
      parr [(ks "$ref", pnull), (ks "description", pstr "x")]
    ∧ aget [(ks "$ref", pnull), (ks "description", pstr "x")] (ks "$ref") = some pnull
    ∧ aget [(ks "$ref", pnull), (ks "description", pstr "x")] (ks "description") =
        some (pstr "x") := by
  refine ⟨?_, rfl, rfl⟩
  have hcond :
      ¬(refIsset [(ks "$ref", pnull), (ks "description", pstr "x")] = true ∧
          (refExtras [(ks "$ref", pnull), (ks "description", pstr "x")]).isEmpty = false) := by
    intro hc
    have h1 := hc.1
    simp [refIsset, aget] at h1
  rw [fix_parr_plain hcond, fixRefsList, fixRefsList, fixRefsList]
  rw [show fixAllRefsWithAllOf pnull = pnull from
      fix_scalar fun _ hc => PVal.noConfusion hc,
    show fixAllRefsWithAllOf (pstr "x") = pstr "x" from
      fix_scalar fun _ hc => PVal.noConfusion hc]

/-! ### Claim C4: unresolvable references in return-type inference -/

theorem clsOf_ne_void (r : String) : clsOf r ≠ "void" := by
  intro hc
  have hlen := congrArg String.length hc
  unfold clsOf at hlen
  rw [String.length_append] at hlen
  have h1 : ("\\Upsun\\Model\\" : String).length = 13 := by decide
  have h2 : ("void" : String).length = 4 := by decide
  omega

/-- C4 (amended): for a response schema that is a single reference whose
target cannot be resolved inside the document, collectMainRefs contributes
the model class named by the last path segment of the reference — not the
type void — and returns normally without raising an error. -/
theorem C4_unresolvable_ref_gives_model_class (spec : PVal) (r : String)
    (hres : resolveRef spec r = none) :
    collectMainRefs (parr [(ks "$ref", pstr r)]) spec =
      ⟨[clsOf r], parr [(ks "return", pstr (clsOf r))]⟩
    ∧ "void" ∉ (collectMainRefs (parr [(ks "$ref", pstr r)]) spec).refs := by
  have hmain :
      collectMainRefs (parr [(ks "$ref", pstr r)]) spec =
        ⟨[clsOf r], parr [(ks "return", pstr (clsOf r))]⟩ := by
    simp [collectMainRefs, pisset, pidx, aget, pqq, asStr, hres]
  refine ⟨hmain, ?_⟩
  rw [hmain]
  simp
  exact fun hc => clsOf_ne_void r hc.symm

/-- Witness for C4 at an empty document and a dangling reference. -/
theorem C4_unresolvable_ref_gives_model_class_witness :
    collectMainRefs (parr [(ks "$ref", pstr "#/components/schemas/Missing")]) (parr []) =
      ⟨[clsOf "#/components/schemas/Missing"],
       parr [(ks "return", pstr (clsOf "#/components/schemas/Missing"))]⟩
    ∧ "void" ∉
        (collectMainRefs (parr [(ks "$ref", pstr "#/components/schemas/Missing")])
            (parr [])).refs :=
  C4_unresolvable_ref_gives_model_class (parr []) "#/components/schemas/Missing" rfl

/-- An operation whose only response carries a dangling reference schema. -/
def unresolvedOp : PVal :=
  parr
    [(ks "responses",
      parr
        [(ki 200,
          parr
            [(ks "content",
              parr
                [(ks "application/json",
                  parr
                    [(ks "schema",
                      parr [(ks "$ref", pstr "#/components/schemas/Missing")])])])])])]

/-- Counterexample to C4 as stated: against an empty document the reference
cannot be resolved, yet the return-type inference of addXReturn records the
model class built from the last path segment, not void. -/
theorem C4_unresolvable_ref_counterexample :
    pidx (processOperation (parr []) unresolvedOp) (ks "x-return-types") =
      some (parr [(ki 0, pstr "\\Upsun\\Model\\Missing")])
    ∧ (collectMainRefs (parr [(ks "$ref", pstr "#/components/schemas/Missing")])
          (parr [])).refs = ["\\Upsun\\Model\\Missing"]
    ∧ resolveRef (parr []) "#/components/schemas/Missing" = none :=
  ⟨rfl, rfl, rfl⟩

/-! ### Lemmas about processOperation (claims C1 and C7) -/

/-- The per-response contribution to the accumulated return types, read off
respStep. -/
def respContribution (spec : PVal) (kv : PKey × PVal) : List String :=
  if !isSuccessKey1 kv.1 then []
  else
    let resp := kv.2
    let schema := respSchemaRaw resp
    if phpTruthy schema && (match schema with | parr _ => true | _ => false) then
      if isItemsRefEnvelope schema then
        [clsOf (asStr (pgetD schema [ks "properties", ks "items", ks "$ref"])) ++ "[]"]
      else (collectMainRefs schema spec).refs
    else if hasPdfKey resp then ["string"] else ["void"]

/-- The raw accumulated type list over a responses list. -/
def returnTypesRawL (spec : PVal) (rs : List (PKey × PVal)) : List String :=
  rs.bind (respContribution spec)

/-- The type list after the void-to-null rewrite. -/
def returnTypesConvL (spec : PVal) (rs : List (PKey × PVal)) : List String :=
  let rt := returnTypesRawL spec rs
  if rt.contains "void" && decide (1 < rt.length) then
    rt.map fun t => if t = "void" then "null" else t
  else rt

/-- The returnable flag over a responses list. -/
def hasReturnOfL (rs : List (PKey × PVal)) : Bool :=
  rs.any fun kv => isSuccessKey2 kv.1 && phpTruthy (pqq kv.2 (ks "content") (parr []))

theorem respStep_fst (spec : PVal) (st : List String × PVal) (kv : PKey × PVal) :
    (respStep spec st kv).1 = st.1 ++ respContribution spec kv := by
  unfold respStep respContribution
  by_cases h1 : (!isSuccessKey1 kv.1) = true
  · simp [h1]
  · simp only [h1, Bool.false_eq_true, if_false]
    split
    · split
      · rfl
      · rfl
    · split
      · rfl
      · rfl

theorem respFold_fst (spec : PVal) (l : List (PKey × PVal)) :
    ∀ (acc : List String) (pd : PVal),
      (l.foldl (respStep spec) (acc, pd)).1 = acc ++ returnTypesRawL spec l := by
  induction l with
  | nil => intro acc pd; simp [returnTypesRawL]
  | cons kv t ih =>
    intro acc pd
    simp only [List.foldl_cons]
    have heta : respStep spec (acc, pd) kv =
        ((respStep spec (acc, pd) kv).1, (respStep spec (acc, pd) kv).2) := rfl
    rw [heta, ih]
    rw [respStep_fst]
    simp [returnTypesRawL, List.append_assoc]

theorem addIdKebab_parr (ol : List (PKey × PVal)) :
    ∃ l1, addIdKebab (parr ol) = parr l1
      ∧ aget l1 (ks "responses") = aget ol (ks "responses") := by
  unfold addIdKebab
  split
  · exact ⟨_, rfl, by rw [aget_aset_ne _ _ (by decide)]⟩
  · exact ⟨ol, rfl, rfl⟩

theorem addKebabs_parr (ol : List (PKey × PVal)) :
    ∃ l1, addKebabs (parr ol) = parr l1 ∧ aget l1 (ks "responses") = aget ol (ks "responses") := by
  obtain ⟨l0, h0, hresp0⟩ := addIdKebab_parr ol
  unfold addKebabs
  rw [h0]
  split
  · exact ⟨_, rfl, by rw [aget_aset_ne _ _ (by decide)]; exact hresp0⟩
  · exact ⟨l0, rfl, hresp0⟩

theorem processOperation_observables (spec : PVal) (ol : List (PKey × PVal)) :
    pidx (processOperation spec (parr ol)) (ks "x-returnable") =
      some (pbool (hasReturnOfL (responsesOfV (parr ol))))
    ∧ pidx (processOperation spec (parr ol)) (ks "x-return-types") =
        some
          (parr
            (reindex
              ((dedupFirst [] (returnTypesConvL spec (responsesOfV (parr ol)))).map pstr)))
    ∧ pidx (processOperation spec (parr ol)) (ks "x-return-types-displayReturn") =
        some
          (pbool
            ((returnTypesConvL spec (responsesOfV (parr ol))).any fun t =>
              phpEndsWith t "[]" || phpContains t "array<")) := by
  obtain ⟨l1, hk, hkresp⟩ := addKebabs_parr ol
  have hrs :
      responsesOfV (pput (addKebabs (parr ol)) (ks "x-return-types-displayReturn") (pbool false)) =
        responsesOfV (parr ol) := by
    rw [hk]
    unfold responsesOfV
    simp only [pput, pidx]
    rw [aget_aset_ne _ _ (by decide), hkresp]
  have hst :
      (List.foldl (respStep spec) ([], parr []) (responsesOfV (parr ol))).1 =
        returnTypesRawL spec (responsesOfV (parr ol)) := by
    rw [respFold_fst]
    simp
  simp only [processOperation]
  rw [hrs, hk]
  unfold returnTypesConvL hasReturnOfL
  rw [← hst]
  refine ⟨?_, ?_, ?_⟩
  · split <;> split <;> split <;> simp only [pput, pidx] <;> rw [aget_aset_eq]
  · split
    next hv =>
      split <;> split <;> simp only [pput, pidx] <;>
        (repeat rw [aget_aset_ne _ _ (by decide)]) <;> rw [aget_aset_eq, if_pos hv]
    next hv =>
      split <;> split <;> simp only [pput, pidx] <;>
        (repeat rw [aget_aset_ne _ _ (by decide)]) <;> rw [aget_aset_eq, if_neg hv]
  · split
    next hv =>
      split
      next hd =>
        split <;> simp only [pput, pidx] <;>
          (repeat rw [aget_aset_ne _ _ (by decide)]) <;> rw [aget_aset_eq, if_pos hv, hd]
      next hd =>
        rw [Bool.not_eq_true] at hd
        split <;> simp only [pput, pidx] <;>
          (repeat rw [aget_aset_ne _ _ (by decide)]) <;> rw [aget_aset_eq, if_pos hv, hd]
    next hv =>
      split
      next hd =>
        split <;> simp only [pput, pidx] <;>
          (repeat rw [aget_aset_ne _ _ (by decide)]) <;> rw [aget_aset_eq, if_neg hv, hd]
      next hd =>
        rw [Bool.not_eq_true] at hd
        split <;> simp only [pput, pidx] <;>
          (repeat rw [aget_aset_ne _ _ (by decide)]) <;> rw [aget_aset_eq, if_neg hv, hd]

/-- The two success filters of addXReturn agree on every key. -/
theorem isSuccessKey_eq (k : PKey) : isSuccessKey1 k = isSuccessKey2 k := by
  cases k with
  | ks s => rfl
  | ki n =>
    simp only [isSuccessKey1, isSuccessKey2, decide_eq_decide]
    omega

/-- When the content of a response defaults to the empty array, no nested
schema path through content is set. -/
theorem pissetPath_content_empty {resp : PVal}
    (h : pqq resp (ks "content") (parr []) = parr []) (k2 : PKey) :
    pissetPath resp [ks "content", k2, ks "schema"] = false := by
  unfold pqq at h
  unfold pissetPath
  simp only [pget]
  cases hc : pidx resp (ks "content") with
  | none => rfl
  | some w =>
    rw [hc] at h
    cases w with
    | pnull => rfl
    | pbool b => exact PVal.noConfusion h
    | pint n => exact PVal.noConfusion h
    | pstr s => exact PVal.noConfusion h
    | pobj => exact PVal.noConfusion h
    | parr l =>
      have hl : l = [] := by
        have := PVal.parr.inj h
        exact this
      subst hl
      rfl

/-- A response whose key is not a success key contributes nothing to the
return-type list. -/
theorem respContribution_nonsuccess (spec : PVal) {kv : PKey × PVal}
    (h : isSuccessKey1 kv.1 = false) : respContribution spec kv = [] := by
  unfold respContribution
  rw [h]
  rfl

/-- A success response with an empty content map contributes exactly the
void pseudo-type. -/
theorem respContribution_empty_content (spec : PVal) {kv : PKey × PVal}
    (hs : isSuccessKey1 kv.1 = true)
    (h : pqq kv.2 (ks "content") (parr []) = parr []) :
    respContribution spec kv = ["void"] := by
  have h1 := pissetPath_content_empty h (ks "application/json")
  have h2 := pissetPath_content_empty h (ks "application/problem+json")
  have h3 := pissetPath_content_empty h (ks "application/pdf")
  have hpdf : hasPdfKey kv.2 = false := by
    unfold hasPdfKey contentKeys
    rw [h]
    rfl
  have hschema : respSchemaRaw kv.2 = pnull := by
    unfold respSchemaRaw
    rw [h1, h2, h3, hpdf]
    rfl
  simp only [respContribution, hs, hschema, hpdf]
  rfl

/-- A flatMap over a list equals the flatMap over its filtered sublist when
the function vanishes off the filter. -/
theorem bind_eq_filter_bind {α β : Type} (f : α → List β) (p : α → Bool) (l : List α)
    (h : ∀ a ∈ l, p a = false → f a = []) :
    l.bind f = (l.filter p).bind f := by
  induction l with
  | nil => rfl
  | cons a t ih =>
    by_cases hp : p a = true
    · rw [List.filter_cons, if_pos hp]
      show f a ++ t.bind f = f a ++ (t.filter p).bind f
      rw [ih fun x hx => h x (List.mem_cons_of_mem _ hx)]
    · have hpf : p a = false := by rwa [Bool.not_eq_true] at hp
      rw [List.filter_cons, if_neg hp]
      show f a ++ t.bind f = (t.filter p).bind f
      rw [h a (List.mem_cons_self _ _) hpf, List.nil_append,
        ih fun x hx => h x (List.mem_cons_of_mem _ hx)]

/-- When the only success response has an empty content map, the raw
return-type list is exactly the void pseudo-type. -/
theorem returnTypesRaw_single_void (spec : PVal) (rs : List (PKey × PVal)) (kv0 : PKey × PVal)
    (hf : rs.filter (fun kv => isSuccessKey1 kv.1) = [kv0])
    (h0 : pqq kv0.2 (ks "content") (parr []) = parr []) :
    returnTypesRawL spec rs = ["void"] := by
  have hs0 : isSuccessKey1 kv0.1 = true := by
    have hm : kv0 ∈ rs.filter (fun kv => isSuccessKey1 kv.1) := by
      rw [hf]
      exact List.mem_singleton_self _
    exact (List.mem_filter.mp hm).2
  unfold returnTypesRawL
  rw [bind_eq_filter_bind (respContribution spec) (fun kv => isSuccessKey1 kv.1) rs
      (fun a _ hpa => respContribution_nonsuccess spec hpa), hf]
  have hsing : [kv0].bind (respContribution spec) = respContribution spec kv0 ++ [] := rfl
  rw [hsing, respContribution_empty_content spec hs0 h0]
  rfl

/-- The void-to-null rewrite leaves a pure void singleton untouched. -/
theorem returnTypesConv_single_void (spec : PVal) (rs : List (PKey × PVal)) (kv0 : PKey × PVal)
    (hf : rs.filter (fun kv => isSuccessKey1 kv.1) = [kv0])
    (h0 : pqq kv0.2 (ks "content") (parr []) = parr []) :
    returnTypesConvL spec rs = ["void"] := by
  unfold returnTypesConvL
  rw [returnTypesRaw_single_void spec rs kv0 hf h0]
  rfl

/-- When the only success response has an empty content map, the returnable
flag is false. -/
theorem hasReturn_false_of_single_empty (rs : List (PKey × PVal)) (kv0 : PKey × PVal)
    (hf : rs.filter (fun kv => isSuccessKey1 kv.1) = [kv0])
    (h0 : pqq kv0.2 (ks "content") (parr []) = parr []) :
    hasReturnOfL rs = false := by
  rw [← Bool.not_eq_true, hasReturnOfL, List.any_eq_true]
  rintro ⟨kv, hmem, hp⟩
  rw [Bool.and_eq_true] at hp
  have hs1 : isSuccessKey1 kv.1 = true := by
    rw [isSuccessKey_eq]
    exact hp.1
  have hm : kv ∈ rs.filter (fun kv => isSuccessKey1 kv.1) := List.mem_filter.mpr ⟨hmem, hs1⟩
  rw [hf, List.mem_singleton] at hm
  subst hm
  rw [h0] at hp
  exact absurd hp.2 (by decide)

/-- C7: the per-operation body of addXReturn sets the x-returnable flag to
true exactly when at least one success response (2xx status or the default
key) has a non-empty content map; in particular, when the only success
response has no content, x-returnable is false and x-return-types is the
single entry void. -/
theorem C7_x_returnable (spec : PVal) (ol rs : List (PKey × PVal))
    (hresp : aget ol (ks "responses") = some (parr rs))
    (hwf : ∀ kv ∈ rs, ∃ cl, pqq kv.2 (ks "content") (parr []) = parr cl) :
    (pidx (processOperation spec (parr ol)) (ks "x-returnable") = some (pbool true) ↔
      ∃ kv ∈ rs, isSuccessKey2 kv.1 = true ∧ pqq kv.2 (ks "content") (parr []) ≠ parr [])
    ∧ ∀ kv0, rs.filter (fun kv => isSuccessKey1 kv.1) = [kv0] →
        pqq kv0.2 (ks "content") (parr []) = parr [] →
        pidx (processOperation spec (parr ol)) (ks "x-returnable") = some (pbool false)
        ∧ pidx (processOperation spec (parr ol)) (ks "x-return-types") =
            some (parr [(ki 0, pstr "void")]) := by
  have hobs := processOperation_observables spec ol
  have hrv : responsesOfV (parr ol) = rs := by
    unfold responsesOfV
    simp only [pidx]
    rw [hresp]
  rw [hrv] at hobs
  obtain ⟨hret, hty, _⟩ := hobs
  constructor
  · rw [hret]
    constructor
    · intro h
      have hb : hasReturnOfL rs = true := by simpa using h
      rw [hasReturnOfL, List.any_eq_true] at hb
      obtain ⟨kv, hmem, hp⟩ := hb
      rw [Bool.and_eq_true] at hp
      refine ⟨kv, hmem, hp.1, ?_⟩
      intro hc
      rw [hc] at hp
      exact absurd hp.2 (by decide)
    · rintro ⟨kv, hmem, hs2, hne⟩
      have hb : hasReturnOfL rs = true := by
        rw [hasReturnOfL, List.any_eq_true]
        refine ⟨kv, hmem, ?_⟩
        rw [Bool.and_eq_true]
        refine ⟨hs2, ?_⟩
        obtain ⟨cl, hcl⟩ := hwf kv hmem
        rw [hcl]
        cases cl with
        | nil => exact absurd hcl hne
        | cons a t => rfl
      rw [hb]
  · intro kv0 hf h0
    refine ⟨?_, ?_⟩
    · rw [hret, hasReturn_false_of_single_empty rs kv0 hf h0]
    · rw [hty, returnTypesConv_single_void spec rs kv0 hf h0]
      rfl

/-- A concrete operation with one 204 response carrying no content. -/
def c7Op : List (PKey × PVal) :=
  [(ks "responses", parr [(ki 204, parr [(ks "description", pstr "No Content")])])]

/-- Witness for C7: on the concrete one-response operation without content,
x-returnable comes out false and x-return-types is the void singleton. -/
theorem C7_x_returnable_witness :
    pidx (processOperation pnull (parr c7Op)) (ks "x-returnable") = some (pbool false)
    ∧ pidx (processOperation pnull (parr c7Op)) (ks "x-return-types") =
        some (parr [(ki 0, pstr "void")]) :=
  (C7_x_returnable pnull c7Op [(ki 204, parr [(ks "description", pstr "No Content")])]
      rfl
      (by
        intro kv hm
        rw [List.mem_singleton] at hm
        subst hm
        exact ⟨[], rfl⟩)).2
    (ki 204, parr [(ks "description", pstr "No Content")]) rfl rfl

/-! ### Claim C1: the pagination-envelope special case -/

/-- A success response whose schema passes the items-reference envelope
check contributes the class of the items reference with an array suffix. -/
theorem respContribution_envelope (spec : PVal) {k : PKey} {resp : PVal}
    {sl : List (PKey × PVal)}
    (hs : isSuccessKey1 k = true)
    (hschema : respSchemaRaw resp = parr sl)
    (henv : isItemsRefEnvelope (parr sl) = true) :
    respContribution spec (k, resp) =
      [clsOf (asStr (pgetD (parr sl) [ks "properties", ks "items", ks "$ref"])) ++ "[]"] := by
  have hsl : sl ≠ [] := by
    intro hnil
    subst hnil
    exact absurd henv (by decide)
  have htr : phpTruthy (parr sl) = true := by
    cases sl with
    | nil => exact absurd rfl hsl
    | cons a t => rfl
  simp only [respContribution, hs, hschema, htr, henv]
  rfl

/-- Membership in a per-response contribution carries into the raw list. -/
theorem mem_returnTypesRaw (spec : PVal) {rs : List (PKey × PVal)} {kv : PKey × PVal}
    {x : String} (hmem : kv ∈ rs) (hx : x ∈ respContribution spec kv) :
    x ∈ returnTypesRawL spec rs := by
  unfold returnTypesRawL
  exact List.mem_bind.mpr ⟨kv, hmem, hx⟩

/-- The void-to-null rewrite keeps every member other than void. -/
theorem mem_returnTypesConv (spec : PVal) {rs : List (PKey × PVal)} {x : String}
    (hmem : x ∈ returnTypesRawL spec rs) (hx : x ≠ "void") :
    x ∈ returnTypesConvL spec rs := by
  simp only [returnTypesConvL]
  split
  · exact List.mem_map.mpr ⟨x, hmem, by rw [if_neg hx]⟩
  · exact hmem

/-- array_unique keeps every member not previously seen. -/
theorem mem_dedupFirst {x : String} : ∀ {l seen : List String},
    x ∈ l → x ∉ seen → x ∈ dedupFirst seen l := by
  intro l
  induction l with
  | nil => intro seen h _; exact absurd h (List.not_mem_nil x)
  | cons a t ih =>
    intro seen hmem hns
    rw [List.mem_cons] at hmem
    unfold dedupFirst
    by_cases hc : seen.contains a = true
    · rw [if_pos hc]
      cases hmem with
      | inl heq =>
        subst heq
        exact absurd (List.mem_of_elem_eq_true hc) hns
      | inr hmem2 => exact ih hmem2 hns
    · rw [if_neg hc]
      cases hmem with
      | inl heq =>
        subst heq
        exact List.mem_cons_self _ _
      | inr hmem2 =>
        by_cases hxa : x = a
        · subst hxa
          exact List.mem_cons_self _ _
        · refine List.mem_cons_of_mem _ (ih hmem2 ?_)
          intro hin
          rw [List.mem_cons] at hin
          cases hin with
          | inl h2 => exact hxa h2
          | inr h2 => exact hns h2

/-- Appending the array suffix makes str_ends_with hold. -/
theorem phpEndsWith_append (s : String) : phpEndsWith (s ++ "[]") "[]" = true := by
  unfold phpEndsWith
  exact List.isSuffixOf_iff_suffix.mpr ⟨s.data, rfl⟩

/-- A class name with the array suffix is never the void pseudo-type. -/
theorem clsArr_ne_void (r : String) : clsOf r ++ "[]" ≠ "void" := by
  intro hc
  have hlen := congrArg String.length hc
  rw [String.length_append] at hlen
  unfold clsOf at hlen
  rw [String.length_append] at hlen
  have h1 : ("\\Upsun\\Model\\" : String).length = 13 := by decide
  have h2 : ("void" : String).length = 4 := by decide
  omega

/-- C1 (amended): the pagination-envelope special case of addXReturn fires
when the response schema declares type object and its properties.items entry
carries a reference key directly; for any such success response the
operation gains the class of that reference with an array suffix among its
return types and the display flag is set to true. An items property that is
an array of references does not pass this check. -/
theorem C1_items_ref_envelope (spec : PVal) (ol rs : List (PKey × PVal)) (k : PKey)
    (resp : PVal) (sl : List (PKey × PVal)) (r : String)
    (hresp : aget ol (ks "responses") = some (parr rs))
    (hmem : (k, resp) ∈ rs)
    (hsucc : isSuccessKey1 k = true)
    (hschema : respSchemaRaw resp = parr sl)
    (henv : isItemsRefEnvelope (parr sl) = true)
    (hr : asStr (pgetD (parr sl) [ks "properties", ks "items", ks "$ref"]) = r) :
    (clsOf r ++ "[]") ∈ dedupFirst [] (returnTypesConvL spec rs)
    ∧ pidx (processOperation spec (parr ol)) (ks "x-return-types") =
        some (parr (reindex ((dedupFirst [] (returnTypesConvL spec rs)).map pstr)))
    ∧ pidx (processOperation spec (parr ol)) (ks "x-return-types-displayReturn") =
        some (pbool true) := by
  have hcontrib : respContribution spec (k, resp) = [clsOf r ++ "[]"] := by
    rw [← hr]
    exact respContribution_envelope spec hsucc hschema henv
  have hraw : (clsOf r ++ "[]") ∈ returnTypesRawL spec rs :=
    mem_returnTypesRaw spec hmem (by rw [hcontrib]; exact List.mem_singleton_self _)
  have hconv : (clsOf r ++ "[]") ∈ returnTypesConvL spec rs :=
    mem_returnTypesConv spec hraw (clsArr_ne_void r)
  have hded : (clsOf r ++ "[]") ∈ dedupFirst [] (returnTypesConvL spec rs) :=
    mem_dedupFirst hconv (List.not_mem_nil _)
  have hobs := processOperation_observables spec ol
  have hrv : responsesOfV (parr ol) = rs := by
    unfold responsesOfV
    simp only [pidx]
    rw [hresp]
  rw [hrv] at hobs
  refine ⟨hded, hobs.2.1, ?_⟩
  rw [hobs.2.2]
  have hany :
      (returnTypesConvL spec rs).any
          (fun t => phpEndsWith t "[]" || phpContains t "array<") = true := by
    rw [List.any_eq_true]
    exact ⟨clsOf r ++ "[]", hconv, by rw [phpEndsWith_append, Bool.true_or]⟩
  rw [hany]

/-- The schema of the envelope shape the special case accepts: the items
property is itself a bare reference. -/
def c1Sl : List (PKey × PVal) :=
  [(ks "type", pstr "object"),
   (ks "properties",
     parr [(ks "items", parr [(ks "$ref", pstr "#/components/schemas/User")])])]

/-- A response carrying the accepted envelope schema as json content. -/
def c1Resp : PVal :=
  parr [(ks "content", parr [(ks "application/json", parr [(ks "schema", parr c1Sl)])])]

/-- The responses list of the concrete envelope operation. -/
def c1Rs : List (PKey × PVal) := [(ki 200, c1Resp)]

/-- The concrete envelope operation. -/
def c1Op : List (PKey × PVal) := [(ks "responses", parr c1Rs)]

/-- Witness for C1 on the concrete operation whose 200 response schema is an
object whose items property is a bare reference. -/
theorem C1_items_ref_envelope_witness :
    (clsOf "#/components/schemas/User" ++ "[]") ∈
        dedupFirst [] (returnTypesConvL pnull c1Rs)
    ∧ pidx (processOperation pnull (parr c1Op)) (ks "x-return-types") =
        some (parr (reindex ((dedupFirst [] (returnTypesConvL pnull c1Rs)).map pstr)))
    ∧ pidx (processOperation pnull (parr c1Op)) (ks "x-return-types-displayReturn") =
        some (pbool true) :=
  C1_items_ref_envelope pnull c1Op c1Rs (ki 200) c1Resp c1Sl "#/components/schemas/User"
    rfl (List.mem_singleton_self _) (by decide) rfl rfl rfl

/-- The schema of the claim and of the spec example: the items property
holds an array whose items are a reference. -/
def c1ArrSl : List (PKey × PVal) :=
  [(ks "type", pstr "object"),
   (ks "properties",
     parr [(ks "items",
       parr [(ks "type", pstr "array"),
             (ks "items", parr [(ks "$ref", pstr "#/components/schemas/User")])])])]

/-- The concrete operation carrying the array-of-reference envelope. -/
def c1ArrOp : PVal :=
  parr
    [(ks "responses",
      parr
        [(ki 200,
          parr
            [(ks "content",
              parr [(ks "application/json", parr [(ks "schema", parr c1ArrSl)])])])])]

/-- Counterexample to C1 as stated: on the array-of-reference envelope the
special case does not fire; the operation body emits the single return type
object and leaves the display flag false. -/
theorem C1_items_ref_envelope_counterexample :
    pidx (processOperation (parr []) c1ArrOp) (ks "x-return-types") =
      some (parr [(ki 0, pstr "object")])
    ∧ pidx (processOperation (parr []) c1ArrOp) (ks "x-return-types-displayReturn") =
        some (pbool false)
    ∧ isItemsRefEnvelope (parr c1ArrSl) = false :=
  ⟨rfl, rfl, rfl⟩

/-! ### Claim C2: nullability propagation over the route-variant group -/

/-- A key is absent from the lookup exactly when it is not among the keys. -/
theorem aget_none_iff {l : List (PKey × PVal)} {k : PKey} :
    aget l k = none ↔ k ∉ l.map Prod.fst := by
  induction l with
  | nil => simp [aget]
  | cons a t ih =>
    obtain ⟨k1, v1⟩ := a
    simp only [aget, List.map_cons, List.mem_cons]
    by_cases h : k1 = k
    · subst h
      simp
    · rw [if_neg h, ih]
      constructor
      · intro hn hc
        cases hc with
        | inl h2 => exact h h2.symm
        | inr h2 => exact hn h2
      · intro hn h2
        exact hn (Or.inr h2)

/-- A successful lookup keeps the key among the keys. -/
theorem aget_some_mem_keys {l : List (PKey × PVal)} {k : PKey} {w : PVal}
    (h : aget l k = some w) : k ∈ l.map Prod.fst :=
  List.mem_map.mpr ⟨(k, w), aget_mem h, rfl⟩

/-- isset over an entry list: some non-null value sits at the key. -/
theorem pisset_parr_iff {l : List (PKey × PVal)} {k : PKey} :
    pisset (parr l) k = true ↔ ∃ w, aget l k = some w ∧ w ≠ pnull := by
  unfold pisset pidx
  dsimp only
  cases h : aget l k with
  | none => simp
  | some w => cases w <;> simp

/-- aset either replaces in place, keeping the key list, or appends a fresh
key at the end. -/
theorem keys_aset (l : List (PKey × PVal)) (k : PKey) (v : PVal) :
    ((aset l k v).map Prod.fst = l.map Prod.fst ∧ k ∈ l.map Prod.fst) ∨
    ((aset l k v).map Prod.fst = l.map Prod.fst ++ [k] ∧ k ∉ l.map Prod.fst) := by
  induction l with
  | nil =>
    right
    exact ⟨rfl, List.not_mem_nil k⟩
  | cons a t ih =>
    obtain ⟨k1, v1⟩ := a
    simp only [aset, List.map_cons]
    by_cases h : k1 = k
    · subst h
      rw [if_pos rfl]
      left
      exact ⟨rfl, List.mem_cons_self _ _⟩
    · rw [if_neg h]
      simp only [List.map_cons]
      cases ih with
      | inl h2 =>
        left
        constructor
        · rw [h2.1]
        · exact List.mem_cons_of_mem _ h2.2
      | inr h2 =>
        right
        constructor
        · rw [h2.1, List.cons_append]
        · intro hc
          rw [List.mem_cons] at hc
          cases hc with
          | inl h3 => exact h h3.symm
          | inr h3 => exact h2.2 h3

/-- aset preserves distinctness of the keys. -/
theorem nodup_keys_aset {l : List (PKey × PVal)} (h : (l.map Prod.fst).Nodup)
    (k : PKey) (v : PVal) : ((aset l k v).map Prod.fst).Nodup := by
  cases keys_aset l k v with
  | inl h2 =>
    rw [h2.1]
    exact h
  | inr h2 =>
    rw [h2.1]
    refine h.append (List.nodup_singleton k) ?_
    intro a ha hb
    rw [List.mem_singleton] at hb
    subst hb
    exact h2.2 ha

/-- The keys only grow along one collection step. -/
theorem mem_keys_collectStep {acc : List (PKey × PVal)} {k : PKey}
    (h : k ∈ acc.map Prod.fst) (kv : PKey × PVal) :
    k ∈ (collectStep acc kv).map Prod.fst := by
  unfold collectStep
  split
  · exact h
  · cases keys_aset acc kv.1 kv.2 with
    | inl h2 =>
      rw [h2.1]
      exact h
    | inr h2 =>
      rw [h2.1]
      exact List.mem_append_left _ h

/-- The key of the written entry is among the keys after a collection step. -/
theorem mem_keys_collectStep_self (acc : List (PKey × PVal)) (kv : PKey × PVal) :
    kv.1 ∈ (collectStep acc kv).map Prod.fst := by
  unfold collectStep
  split
  next h =>
    obtain ⟨w, hw, _⟩ := pisset_parr_iff.mp h
    exact aget_some_mem_keys hw
  next h =>
    cases keys_aset acc kv.1 kv.2 with
    | inl h2 =>
      rw [h2.1]
      exact h2.2
    | inr h2 =>
      rw [h2.1]
      exact List.mem_append_right _ (List.mem_singleton_self _)

/-- Keys survive the collection fold over a property list. -/
theorem mem_keys_foldCollect {ps : List (PKey × PVal)} :
    ∀ {acc : List (PKey × PVal)} {k : PKey},
      k ∈ acc.map Prod.fst → k ∈ (ps.foldl collectStep acc).map Prod.fst := by
  induction ps with
  | nil =>
    intro acc k h
    exact h
  | cons kv t ih =>
    intro acc k h
    exact ih (mem_keys_collectStep h kv)

/-- The collection fold records the key of every entry it passes over. -/
theorem mem_keys_foldCollect_self {ps : List (PKey × PVal)} :
    ∀ {acc : List (PKey × PVal)} {kv : PKey × PVal},
      kv ∈ ps → kv.1 ∈ (ps.foldl collectStep acc).map Prod.fst := by
  induction ps with
  | nil =>
    intro acc kv h
    exact absurd h (List.not_mem_nil kv)
  | cons a t ih =>
    intro acc kv h
    rw [List.mem_cons] at h
    simp only [List.foldl_cons]
    cases h with
    | inl h2 =>
      subst h2
      exact mem_keys_foldCollect (mem_keys_collectStep_self acc kv)
    | inr h2 => exact ih h2

/-- Distinct keys are preserved by one collection step. -/
theorem nodup_collectStep {acc : List (PKey × PVal)} (h : (acc.map Prod.fst).Nodup)
    (kv : PKey × PVal) : ((collectStep acc kv).map Prod.fst).Nodup := by
  unfold collectStep
  split
  · exact h
  · exact nodup_keys_aset h kv.1 kv.2

/-- Distinct keys are preserved by the collection fold. -/
theorem nodup_foldCollect {ps : List (PKey × PVal)} : ∀ {acc : List (PKey × PVal)},
    (acc.map Prod.fst).Nodup → ((ps.foldl collectStep acc).map Prod.fst).Nodup := by
  induction ps with
  | nil =>
    intro acc h
    exact h
  | cons kv t ih =>
    intro acc h
    exact ih (nodup_collectStep h kv)

/-- Distinct keys are preserved by one route of the collection. -/
theorem nodup_collectRoute {S acc : List (PKey × PVal)} (h : (acc.map Prod.fst).Nodup)
    (rt : String) : ((collectRoute S acc rt).map Prod.fst).Nodup := by
  unfold collectRoute
  split
  · exact h
  · exact nodup_foldCollect h

/-- The collected allProperties map has distinct keys. -/
theorem nodup_collect (S : List (PKey × PVal)) :
    ((collectAllRouteProperties S).map Prod.fst).Nodup := by
  unfold collectAllRouteProperties
  simp only [routeTypes, List.foldl_cons, List.foldl_nil]
  exact nodup_collectRoute
    (nodup_collectRoute
      (nodup_collectRoute (by simp : ((([] : List (PKey × PVal)).map Prod.fst).Nodup)) _) _) _

/-- Keys survive one route of the collection. -/
theorem mem_keys_collectRoute {S acc : List (PKey × PVal)} {k : PKey}
    (h : k ∈ acc.map Prod.fst) (rt : String) :
    k ∈ (collectRoute S acc rt).map Prod.fst := by
  unfold collectRoute
  split
  · exact h
  · exact mem_keys_foldCollect h

/-- Every property name of a present route type is collected into the
allProperties map. -/
theorem collect_complete (S : List (PKey × PVal)) :
    ∀ rt ∈ routeTypes, routeIsset S rt = true →
      ∀ kv ∈ routePropsOf S rt, kv.1 ∈ (collectAllRouteProperties S).map Prod.fst := by
  intro rt hrt hiss kv hkv
  have hroute : ∀ acc : List (PKey × PVal), kv.1 ∈ (collectRoute S acc rt).map Prod.fst := by
    intro acc
    unfold collectRoute
    split
    next hc =>
      rw [hiss] at hc
      exact absurd hc (by decide)
    next => exact mem_keys_foldCollect_self hkv
  unfold collectAllRouteProperties
  simp only [routeTypes, List.foldl_cons, List.foldl_nil]
  simp only [routeTypes, List.mem_cons, List.not_mem_nil, or_false] at hrt
  rcases hrt with h1 | h1 | h1
  all_goals subst h1
  · exact mem_keys_collectRoute (mem_keys_collectRoute (hroute []) _) _
  · exact mem_keys_collectRoute (hroute _) _
  · exact hroute _

/-- forceNullableAt keeps the route an entry array. -/
theorem forceNullable_parr (rl : List (PKey × PVal)) (k : PKey) :
    ∃ rl2, forceNullableAt (parr rl) k = parr rl2 :=
  ⟨_, rfl⟩

/-- The properties list after a properties write on an array route. -/
theorem propsListOf_pput (rl newp : List (PKey × PVal)) :
    propsListOf (pput (parr rl) (ks "properties") (parr newp)) = newp := by
  unfold propsListOf pput pqq pidx
  dsimp only
  rw [aget_aset_eq]

/-- The properties list of a route after forceNullableAt. -/
theorem forceNullable_props (rl : List (PKey × PVal)) (k : PKey) :
    propsListOf (forceNullableAt (parr rl) k) =
      aset (propsListOf (parr rl)) k
        (pput (pqq (parr (propsListOf (parr rl))) k pnull) (ks "nullable") (pbool true)) := by
  simp only [forceNullableAt]
  exact propsListOf_pput _ _

/-- forceNullableAt leaves every other property untouched. -/
theorem forceNullable_frame (rl : List (PKey × PVal)) {k k2 : PKey} (h : k2 ≠ k) :
    aget (propsListOf (forceNullableAt (parr rl) k)) k2 =
      aget (propsListOf (parr rl)) k2 := by
  rw [forceNullable_props]
  exact aget_aset_ne _ _ h

/-- The written entry of forceNullableAt at its own key. -/
theorem forceNullable_at {rl : List (PKey × PVal)} {k : PKey} {w : PVal}
    (h : aget (propsListOf (parr rl)) k = some w) :
    aget (propsListOf (forceNullableAt (parr rl) k)) k =
      some (pput w (ks "nullable") (pbool true)) := by
  have hq : pqq (parr (propsListOf (parr rl))) k pnull = w := by
    unfold pqq pidx
    dsimp only
    rw [h]
    cases w <;> rfl
  rw [forceNullable_props, aget_aset_eq, hq]

/-- Reading a key through agreeing lookups gives the same coalesced value. -/
theorem pqq_parr_congr {l l2 : List (PKey × PVal)} {k : PKey} (d : PVal)
    (h : aget l k = aget l2 k) : pqq (parr l) k d = pqq (parr l2) k d := by
  unfold pqq pidx
  dsimp only
  rw [h]

/-- The nullable flag only depends on the entry at the key. -/
theorem nullableFlag_congr {l l2 : List (PKey × PVal)} {k : PKey}
    (h : aget l k = aget l2 k) : nullableFlag l k = nullableFlag l2 k := by
  unfold nullableFlag
  rw [pqq_parr_congr pnull h]

/-- The nullable flag read off a known entry. -/
theorem nullableFlag_of_aget {l : List (PKey × PVal)} {k : PKey} {w : PVal}
    (h : aget l k = some w) :
    nullableFlag l k = phpTruthy (pqq w (ks "nullable") (pbool false)) := by
  unfold nullableFlag
  have hq : pqq (parr l) k pnull = w := by
    unfold pqq pidx
    dsimp only
    rw [h]
    cases w <;> rfl
  rw [hq]

/-- Writing nullable true into an array value makes its flag read true. -/
theorem flag_of_pput_nullable (wl : List (PKey × PVal)) :
    phpTruthy
        (pqq (pput (parr wl) (ks "nullable") (pbool true)) (ks "nullable") (pbool false)) =
      true := by
  have h1 :
      pqq (parr (aset wl (ks "nullable") (pbool true))) (ks "nullable") (pbool false) =
        pbool true := by
    unfold pqq pidx
    dsimp only
    rw [aget_aset_eq]
  show phpTruthy
      (pqq (parr (aset wl (ks "nullable") (pbool true))) (ks "nullable") (pbool false)) = true
  rw [h1]
  rfl

/-- forceNullableAt on an array entry leaves a truthy nullable flag. -/
theorem forceNullable_flag {rl wl : List (PKey × PVal)} {k : PKey}
    (h : aget (propsListOf (parr rl)) k = some (parr wl)) :
    nullableFlag (propsListOf (forceNullableAt (parr rl) k)) k = true := by
  rw [nullableFlag_of_aget (forceNullable_at h)]
  exact flag_of_pput_nullable wl

/-- An offset write never produces null. -/
theorem pput_ne_pnull (w : PVal) (k : PKey) (x : PVal) : pput w k x ≠ pnull := by
  cases w <;> exact fun hc => PVal.noConfusion hc

/-- The nullable clone of a property is never null. -/
theorem createNullable_ne_pnull (v : PVal) : createNullableProperty v ≠ pnull := by
  unfold createNullableProperty
  split
  · exact fun hc => PVal.noConfusion hc
  · exact pput_ne_pnull v _ _

/-- The nullable clone of an array property carries a truthy nullable flag. -/
theorem createNullable_flag (dl : List (PKey × PVal)) :
    phpTruthy (pqq (createNullableProperty (parr dl)) (ks "nullable") (pbool false)) = true := by
  unfold createNullableProperty
  split
  · rfl
  · exact flag_of_pput_nullable dl

/-- The nullable clone of a reference property is the anyOf wrapper. -/
theorem createNullable_ref {v : PVal} (h : pisset v (ks "$ref") = true) :
    createNullableProperty v =
      parr
        [(ks "anyOf",
          parr
            [(ki 0, parr [(ks "$ref", pqq v (ks "$ref") pnull)]),
             (ki 1, parr [(ks "type", pstr "null")])]),
         (ks "nullable", pbool true)] := by
  unfold createNullableProperty
  rw [if_pos h]

/-- The existing-property branch keeps the route an entry array. -/
theorem stepExisting_parr (S : List (PKey × PVal)) (rt : String)
    (ex rl : List (PKey × PVal)) (kv : PKey × PVal) :
    ∃ rl2, stepExisting S rt ex (parr rl) kv = parr rl2 := by
  simp only [stepExisting]
  by_cases h2 : (kv.1 == ks "id" && !nullableFlag ex kv.1) = true
  · rw [if_pos h2]
    obtain ⟨rl1, h1⟩ := forceNullable_parr rl kv.1
    rw [h1]
    by_cases h3 : (anyOtherNullable S rt kv.1 && !nullableFlag ex kv.1) = true
    · rw [if_pos h3]
      exact forceNullable_parr rl1 kv.1
    · rw [if_neg h3]
      exact ⟨rl1, rfl⟩
  · rw [if_neg h2]
    by_cases h3 : (anyOtherNullable S rt kv.1 && !nullableFlag ex kv.1) = true
    · rw [if_pos h3]
      exact forceNullable_parr rl kv.1
    · rw [if_neg h3]
      exact ⟨rl, rfl⟩

/-- The existing-property branch leaves all other properties untouched. -/
theorem stepExisting_frame (S : List (PKey × PVal)) (rt : String)
    (ex rl : List (PKey × PVal)) (kv : PKey × PVal) {k2 : PKey} (hne : k2 ≠ kv.1) :
    aget (propsListOf (stepExisting S rt ex (parr rl) kv)) k2 =
      aget (propsListOf (parr rl)) k2 := by
  simp only [stepExisting]
  by_cases h2 : (kv.1 == ks "id" && !nullableFlag ex kv.1) = true
  · rw [if_pos h2]
    obtain ⟨rl1, h1⟩ := forceNullable_parr rl kv.1
    rw [h1]
    by_cases h3 : (anyOtherNullable S rt kv.1 && !nullableFlag ex kv.1) = true
    · rw [if_pos h3, forceNullable_frame rl1 hne, ← h1, forceNullable_frame rl hne]
    · rw [if_neg h3, ← h1, forceNullable_frame rl hne]
  · rw [if_neg h2]
    by_cases h3 : (anyOtherNullable S rt kv.1 && !nullableFlag ex kv.1) = true
    · rw [if_pos h3, forceNullable_frame rl hne]
    · rw [if_neg h3]

/-- The existing-property branch keeps the property set, and forces a truthy
nullable flag on an existing id entry that is an array. -/
theorem stepExisting_at (S : List (PKey × PVal)) (rt : String)
    (ex rl : List (PKey × PVal)) (kv : PKey × PVal)
    (he : pisset (parr ex) kv.1 = true)
    (hcur : aget (propsListOf (parr rl)) kv.1 = aget ex kv.1) :
    pisset (parr (propsListOf (stepExisting S rt ex (parr rl) kv))) kv.1 = true
    ∧ (kv.1 = ks "id" → ∀ wl, aget ex (ks "id") = some (parr wl) →
        nullableFlag (propsListOf (stepExisting S rt ex (parr rl) kv)) (ks "id") = true) := by
  obtain ⟨w, hw, hwn⟩ := pisset_parr_iff.mp he
  have hcw : aget (propsListOf (parr rl)) kv.1 = some w := by rw [hcur, hw]
  simp only [stepExisting]
  by_cases h2 : (kv.1 == ks "id" && !nullableFlag ex kv.1) = true
  · rw [if_pos h2]
    obtain ⟨rl1, h1⟩ := forceNullable_parr rl kv.1
    have hag1 : aget (propsListOf (parr rl1)) kv.1 = some (pput w (ks "nullable") (pbool true)) := by
      rw [← h1]
      exact forceNullable_at hcw
    rw [h1]
    by_cases h3 : (anyOtherNullable S rt kv.1 && !nullableFlag ex kv.1) = true
    · rw [if_pos h3]
      constructor
      · exact pisset_parr_iff.mpr
          ⟨_, forceNullable_at hag1, pput_ne_pnull _ _ _⟩
      · intro hid wl hwl
        have hwpar : w = parr wl := by
          rw [hid] at hw
          rw [hw] at hwl
          exact Option.some.inj hwl
        have hag1w : aget (propsListOf (parr rl1)) kv.1 =
            some (parr (aset wl (ks "nullable") (pbool true))) := by
          rw [hag1, hwpar]
          rfl
        rw [← hid]
        exact forceNullable_flag hag1w
    · rw [if_neg h3]
      constructor
      · exact pisset_parr_iff.mpr ⟨_, hag1, pput_ne_pnull _ _ _⟩
      · intro hid wl hwl
        have hwpar : w = parr wl := by
          rw [hid] at hw
          rw [hw] at hwl
          exact Option.some.inj hwl
        have hcww : aget (propsListOf (parr rl)) kv.1 = some (parr wl) := by
          rw [hcw, hwpar]
        rw [← h1, ← hid]
        exact forceNullable_flag hcww
  · rw [if_neg h2]
    by_cases h3 : (anyOtherNullable S rt kv.1 && !nullableFlag ex kv.1) = true
    · rw [if_pos h3]
      constructor
      · exact pisset_parr_iff.mpr ⟨_, forceNullable_at hcw, pput_ne_pnull _ _ _⟩
      · intro hid wl hwl
        have hwpar : w = parr wl := by
          rw [hid] at hw
          rw [hw] at hwl
          exact Option.some.inj hwl
        have hcww : aget (propsListOf (parr rl)) kv.1 = some (parr wl) := by
          rw [hcw, hwpar]
        rw [← hid]
        exact forceNullable_flag hcww
    · rw [if_neg h3]
      constructor
      · exact pisset_parr_iff.mpr ⟨w, hcw, hwn⟩
      · intro hid wl hwl
        have hflag : nullableFlag ex kv.1 = true := by
          cases hnf : nullableFlag ex kv.1 with
          | true => rfl
          | false =>
            exfalso
            apply h2
            rw [hnf, hid]
            rfl
        have hfl2 : nullableFlag (propsListOf (parr rl)) kv.1 = nullableFlag ex kv.1 :=
          nullableFlag_congr hcur
        rw [← hid]
        rw [hfl2]
        exact hflag

/-- stepProp keeps the route an entry array. -/
theorem stepProp_parr (S : List (PKey × PVal)) (rt : String)
    (ex rl : List (PKey × PVal)) (kv : PKey × PVal) :
    ∃ rl2, stepProp S rt ex (parr rl) kv = parr rl2 := by
  unfold stepProp
  split
  · exact ⟨_, rfl⟩
  · exact stepExisting_parr S rt ex rl kv

/-- stepProp leaves all other properties untouched. -/
theorem stepProp_frame (S : List (PKey × PVal)) (rt : String)
    (ex rl : List (PKey × PVal)) (kv : PKey × PVal) {k2 : PKey} (hne : k2 ≠ kv.1) :
    aget (propsListOf (stepProp S rt ex (parr rl) kv)) k2 =
      aget (propsListOf (parr rl)) k2 := by
  unfold stepProp
  split
  · rw [propsListOf_pput]
    exact aget_aset_ne _ _ hne
  · exact stepExisting_frame S rt ex rl kv hne

/-- stepProp writes the nullable clone at the key of a missing property. -/
theorem stepProp_missing (S : List (PKey × PVal)) (rt : String)
    (ex rl : List (PKey × PVal)) (kv : PKey × PVal)
    (he : pisset (parr ex) kv.1 = false) :
    aget (propsListOf (stepProp S rt ex (parr rl) kv)) kv.1 =
      some (createNullableProperty kv.2) := by
  unfold stepProp
  have hc : (!pisset (parr ex) kv.1) = true := by
    rw [he]
    rfl
  rw [if_pos hc, propsListOf_pput, aget_aset_eq]

/-- stepProp at an existing property: the entry stays set, and an existing
array-valued id entry ends with a truthy nullable flag. -/
theorem stepProp_existing (S : List (PKey × PVal)) (rt : String)
    (ex rl : List (PKey × PVal)) (kv : PKey × PVal)
    (he : pisset (parr ex) kv.1 = true)
    (hcur : aget (propsListOf (parr rl)) kv.1 = aget ex kv.1) :
    pisset (parr (propsListOf (stepProp S rt ex (parr rl) kv))) kv.1 = true
    ∧ (kv.1 = ks "id" → ∀ wl, aget ex (ks "id") = some (parr wl) →
        nullableFlag (propsListOf (stepProp S rt ex (parr rl) kv)) (ks "id") = true) := by
  unfold stepProp
  have hc : ¬((!pisset (parr ex) kv.1) = true) := by
    rw [he]
    exact Bool.false_ne_true
  rw [if_neg hc]
  exact stepExisting_at S rt ex rl kv he hcur

/-- The property fold leaves untouched every key none of its entries names. -/
theorem foldStep_frame (S : List (PKey × PVal)) (rt : String) (ex : List (PKey × PVal)) :
    ∀ (t : List (PKey × PVal)) (rl : List (PKey × PVal)) (k : PKey),
      (∀ kv ∈ t, kv.1 ≠ k) →
      aget (propsListOf (t.foldl (stepProp S rt ex) (parr rl))) k =
        aget (propsListOf (parr rl)) k := by
  intro t
  induction t with
  | nil =>
    intro rl k h
    rfl
  | cons kv t2 ih =>
    intro rl k h
    simp only [List.foldl_cons]
    obtain ⟨rl1, h1⟩ := stepProp_parr S rt ex rl kv
    rw [h1, ih rl1 k fun kv2 hm => h kv2 (List.mem_cons_of_mem _ hm), ← h1,
      stepProp_frame S rt ex rl kv (h kv (List.mem_cons_self _ _)).symm]

/-- The property fold keeps the route an entry array. -/
theorem foldStep_parr (S : List (PKey × PVal)) (rt : String) (ex : List (PKey × PVal)) :
    ∀ (t : List (PKey × PVal)) (rl : List (PKey × PVal)),
      ∃ rl2, t.foldl (stepProp S rt ex) (parr rl) = parr rl2 := by
  intro t
  induction t with
  | nil =>
    intro rl
    exact ⟨rl, rfl⟩
  | cons kv t2 ih =>
    intro rl
    simp only [List.foldl_cons]
    obtain ⟨rl1, h1⟩ := stepProp_parr S rt ex rl kv
    rw [h1]
    exact ih rl1

/-- Full specification of the property fold of makePropertiesNullable over
a collected map with distinct keys. -/
theorem foldStep_spec (S : List (PKey × PVal)) (rt : String) (ex : List (PKey × PVal)) :
    ∀ (ap : List (PKey × PVal)) (rl : List (PKey × PVal)),
      (ap.map Prod.fst).Nodup →
      (∀ kv ∈ ap, aget (propsListOf (parr rl)) kv.1 = aget ex kv.1) →
      ∀ kv ∈ ap,
        (pisset (parr ex) kv.1 = false →
          aget (propsListOf (ap.foldl (stepProp S rt ex) (parr rl))) kv.1 =
            some (createNullableProperty kv.2))
        ∧ (pisset (parr ex) kv.1 = true →
            pisset (parr (propsListOf (ap.foldl (stepProp S rt ex) (parr rl)))) kv.1 = true
            ∧ (kv.1 = ks "id" → ∀ wl, aget ex (ks "id") = some (parr wl) →
                nullableFlag (propsListOf (ap.foldl (stepProp S rt ex) (parr rl)))
                    (ks "id") = true)) := by
  intro ap
  induction ap with
  | nil =>
    intro rl _ _ kv hm
    exact absurd hm (List.not_mem_nil kv)
  | cons a t ih =>
    intro rl hnd hinv kv hm
    simp only [List.foldl_cons]
    obtain ⟨rl1, h1⟩ := stepProp_parr S rt ex rl a
    rw [h1]
    simp only [List.map_cons, List.nodup_cons] at hnd
    have hinv1 : ∀ kv2 ∈ t, aget (propsListOf (parr rl1)) kv2.1 = aget ex kv2.1 := by
      intro kv2 hm2
      have hne : kv2.1 ≠ a.1 := by
        intro hc
        exact hnd.1 (hc ▸ List.mem_map.mpr ⟨kv2, hm2, rfl⟩)
      rw [← h1, stepProp_frame S rt ex rl a hne, hinv kv2 (List.mem_cons_of_mem _ hm2)]
    rw [List.mem_cons] at hm
    cases hm with
    | inr hm2 => exact ih rl1 hnd.2 hinv1 kv hm2
    | inl heq =>
      subst heq
      have hframe : aget (propsListOf (t.foldl (stepProp S rt ex) (parr rl1))) kv.1 =
          aget (propsListOf (parr rl1)) kv.1 := by
        apply foldStep_frame
        intro kv2 hm2 hc
        exact hnd.1 (hc ▸ List.mem_map.mpr ⟨kv2, hm2, rfl⟩)
      constructor
      · intro he
        rw [hframe, ← h1]
        exact stepProp_missing S rt ex rl kv he
      · intro he
        have hstep := stepProp_existing S rt ex rl kv he (hinv kv (List.mem_cons_self _ _))
        constructor
        · have hstep1 : pisset (parr (propsListOf (parr rl1))) kv.1 = true := by
            rw [← h1]
            exact hstep.1
          obtain ⟨w2, hw2, hwn2⟩ := pisset_parr_iff.mp hstep1
          refine pisset_parr_iff.mpr ⟨w2, ?_, hwn2⟩
          rw [hframe]
          exact hw2
        · intro hid wl hwl
          have hflag1 : nullableFlag (propsListOf (parr rl1)) (ks "id") = true := by
            rw [← h1]
            exact hstep.2 hid wl hwl
          have hfr2 : aget (propsListOf (t.foldl (stepProp S rt ex) (parr rl1))) (ks "id") =
              aget (propsListOf (parr rl1)) (ks "id") := by
            rw [← hid]
            exact hframe
          rw [nullableFlag_congr hfr2]
          exact hflag1

/-- processRoute writes only at its own route key. -/
theorem processRoute_frame (ap S : List (PKey × PVal)) (rt : String) {k2 : PKey}
    (h : k2 ≠ ks rt) : aget (processRoute ap S rt) k2 = aget S k2 := by
  simp only [processRoute]
  split
  · rfl
  · exact aget_aset_ne _ _ h

/-- The full effect of processRoute at its route key. -/
theorem processRoute_spec (ap S : List (PKey × PVal)) (rt : String)
    (hnd : (ap.map Prod.fst).Nodup)
    (hiss : routeIsset S rt = true)
    (rl : List (PKey × PVal)) (hval : routeVal S rt = parr rl) :
    ∃ rl2, aget (processRoute ap S rt) (ks rt) = some (parr rl2)
      ∧ ∀ kv ∈ ap,
          (pisset (parr (propsListOf (parr rl))) kv.1 = false →
            aget (propsListOf (parr rl2)) kv.1 = some (createNullableProperty kv.2))
          ∧ (pisset (parr (propsListOf (parr rl))) kv.1 = true →
              pisset (parr (propsListOf (parr rl2))) kv.1 = true
              ∧ (kv.1 = ks "id" → ∀ wl,
                  aget (propsListOf (parr rl)) (ks "id") = some (parr wl) →
                  nullableFlag (propsListOf (parr rl2)) (ks "id") = true)) := by
  simp only [processRoute]
  have hcond : ¬((!routeIsset S rt) = true) := by
    rw [hiss]
    exact Bool.false_ne_true
  rw [if_neg hcond, hval]
  obtain ⟨rl2, h2⟩ := foldStep_parr S rt (propsListOf (parr rl)) ap rl
  refine ⟨rl2, ?_, ?_⟩
  · rw [aget_aset_eq, h2]
  · intro kv hm
    have hspec :=
      foldStep_spec S rt (propsListOf (parr rl)) ap rl hnd (fun kv2 hm2 => rfl) kv hm
    rw [h2] at hspec
    exact hspec

/-- C2: after makePropertiesNullable, every property name collected from the
route-variant group is set in every present variant; a variant that lacked a
name holds the nullable clone of the donor definition, which for array
donors carries a truthy nullable flag and for reference donors is the anyOf
wrapper around the unchanged reference; an existing array-valued id entry
ends with a truthy nullable flag; and every property name of any present
variant is collected. -/
theorem C2_makePropertiesNullable (S : List (PKey × PVal)) (rt : String)
    (hrt : rt ∈ routeTypes) (hiss : routeIsset S rt = true)
    (rl : List (PKey × PVal)) (hval : routeVal S rt = parr rl) :
    (∀ rt2 ∈ routeTypes, routeIsset S rt2 = true →
      ∀ kv ∈ routePropsOf S rt2, kv.1 ∈ (collectAllRouteProperties S).map Prod.fst)
    ∧ ∃ rl2, routeVal (makePropertiesNullable S) rt = parr rl2
      ∧ ∀ kv ∈ collectAllRouteProperties S,
          (pisset (parr (propsListOf (parr rl))) kv.1 = false →
            aget (propsListOf (parr rl2)) kv.1 = some (createNullableProperty kv.2)
            ∧ pisset (parr (propsListOf (parr rl2))) kv.1 = true
            ∧ (∀ dl, kv.2 = parr dl → nullableFlag (propsListOf (parr rl2)) kv.1 = true)
            ∧ (pisset kv.2 (ks "$ref") = true →
                createNullableProperty kv.2 =
                  parr
                    [(ks "anyOf",
                      parr
                        [(ki 0, parr [(ks "$ref", pqq kv.2 (ks "$ref") pnull)]),
                         (ki 1, parr [(ks "type", pstr "null")])]),
                     (ks "nullable", pbool true)]))
          ∧ (pisset (parr (propsListOf (parr rl))) kv.1 = true →
              pisset (parr (propsListOf (parr rl2))) kv.1 = true
              ∧ (kv.1 = ks "id" → ∀ wl,
                  aget (propsListOf (parr rl)) (ks "id") = some (parr wl) →
                  nullableFlag (propsListOf (parr rl2)) (ks "id") = true)) := by
  refine ⟨collect_complete S, ?_⟩
  have hnd := nodup_collect S
  simp only [makePropertiesNullable, routeTypes, List.foldl_cons, List.foldl_nil]
  simp only [routeTypes, List.mem_cons, List.not_mem_nil, or_false] at hrt
  rcases hrt with h1 | h1 | h1
  all_goals subst h1
  · obtain ⟨rl2, hag2, hfacts⟩ :=
      processRoute_spec (collectAllRouteProperties S) S "ProxyRoute" hnd hiss rl hval
    refine ⟨rl2, ?_, ?_⟩
    · unfold routeVal
      rw [processRoute_frame _ _ _ (by decide), processRoute_frame _ _ _ (by decide), hag2]
      rfl
    · intro kv hm
      have hf := hfacts kv hm
      refine ⟨?_, hf.2⟩
      intro he
      have hag := hf.1 he
      exact ⟨hag, pisset_parr_iff.mpr ⟨_, hag, createNullable_ne_pnull _⟩,
        fun dl hdl => by rw [nullableFlag_of_aget hag, hdl]; exact createNullable_flag dl,
        fun href => createNullable_ref href⟩
  · have hfr1 :
        aget (processRoute (collectAllRouteProperties S) S "ProxyRoute") (ks "RedirectRoute") =
          aget S (ks "RedirectRoute") :=
      processRoute_frame _ _ _ (by decide)
    have hiss1 :
        routeIsset (processRoute (collectAllRouteProperties S) S "ProxyRoute")
            "RedirectRoute" = true := by
      unfold routeIsset at hiss ⊢
      rw [hfr1]
      exact hiss
    have hval1 :
        routeVal (processRoute (collectAllRouteProperties S) S "ProxyRoute")
            "RedirectRoute" = parr rl := by
      unfold routeVal at hval ⊢
      rw [hfr1]
      exact hval
    obtain ⟨rl2, hag2, hfacts⟩ :=
      processRoute_spec (collectAllRouteProperties S)
        (processRoute (collectAllRouteProperties S) S "ProxyRoute") "RedirectRoute"
        hnd hiss1 rl hval1
    refine ⟨rl2, ?_, ?_⟩
    · unfold routeVal
      rw [processRoute_frame _ _ _ (by decide), hag2]
      rfl
    · intro kv hm
      have hf := hfacts kv hm
      refine ⟨?_, hf.2⟩
      intro he
      have hag := hf.1 he
      exact ⟨hag, pisset_parr_iff.mpr ⟨_, hag, createNullable_ne_pnull _⟩,
        fun dl hdl => by rw [nullableFlag_of_aget hag, hdl]; exact createNullable_flag dl,
        fun href => createNullable_ref href⟩
  · have hfr1 :
        aget (processRoute (collectAllRouteProperties S) S "ProxyRoute") (ks "UpstreamRoute") =
          aget S (ks "UpstreamRoute") :=
      processRoute_frame _ _ _ (by decide)
    have hfr2 :
        aget
            (processRoute (collectAllRouteProperties S)
              (processRoute (collectAllRouteProperties S) S "ProxyRoute") "RedirectRoute")
            (ks "UpstreamRoute") =
          aget (processRoute (collectAllRouteProperties S) S "ProxyRoute")
            (ks "UpstreamRoute") :=
      processRoute_frame _ _ _ (by decide)
    have hiss2 :
        routeIsset
            (processRoute (collectAllRouteProperties S)
              (processRoute (collectAllRouteProperties S) S "ProxyRoute") "RedirectRoute")
            "UpstreamRoute" = true := by
      unfold routeIsset at hiss ⊢
      rw [hfr2, hfr1]
      exact hiss
    have hval2 :
        routeVal
            (processRoute (collectAllRouteProperties S)
              (processRoute (collectAllRouteProperties S) S "ProxyRoute") "RedirectRoute")
            "UpstreamRoute" = parr rl := by
      unfold routeVal at hval ⊢
      rw [hfr2, hfr1]
      exact hval
    obtain ⟨rl2, hag2, hfacts⟩ :=
      processRoute_spec (collectAllRouteProperties S)
        (processRoute (collectAllRouteProperties S)
          (processRoute (collectAllRouteProperties S) S "ProxyRoute") "RedirectRoute")
        "UpstreamRoute" hnd hiss2 rl hval2
    refine ⟨rl2, ?_, ?_⟩
    · unfold routeVal
      rw [hag2]
      rfl
    · intro kv hm
      have hf := hfacts kv hm
      refine ⟨?_, hf.2⟩
      intro he
      have hag := hf.1 he
      exact ⟨hag, pisset_parr_iff.mpr ⟨_, hag, createNullable_ne_pnull _⟩,
        fun dl hdl => by rw [nullableFlag_of_aget hag, hdl]; exact createNullable_flag dl,
        fun href => createNullable_ref href⟩

/-- The properties of the concrete ProxyRoute variant: a plain id and a
reference property. -/
def c2ProxyProps : List (PKey × PVal) :=
  [(ks "id", parr [(ks "type", pstr "string")]),
   (ks "ref", parr [(ks "$ref", pstr "#/components/schemas/X")])]

/-- The concrete ProxyRoute variant. -/
def c2Proxy : List (PKey × PVal) := [(ks "properties", parr c2ProxyProps)]

/-- A concrete schemas map with two of the three route variants present. -/
def c2S : List (PKey × PVal) :=
  [(ks "ProxyRoute", parr c2Proxy),
   (ks "RedirectRoute",
     parr [(ks "properties", parr [(ks "to", parr [(ks "type", pstr "string")])])])]

/-- Witness for C2 on the concrete two-variant schemas map, at the
ProxyRoute variant. -/
theorem C2_makePropertiesNullable_witness :
    (∀ rt2 ∈ routeTypes, routeIsset c2S rt2 = true →
      ∀ kv ∈ routePropsOf c2S rt2, kv.1 ∈ (collectAllRouteProperties c2S).map Prod.fst)
    ∧ ∃ rl2, routeVal (makePropertiesNullable c2S) "ProxyRoute" = parr rl2
      ∧ ∀ kv ∈ collectAllRouteProperties c2S,
          (pisset (parr (propsListOf (parr c2Proxy))) kv.1 = false →
            aget (propsListOf (parr rl2)) kv.1 = some (createNullableProperty kv.2)
            ∧ pisset (parr (propsListOf (parr rl2))) kv.1 = true
            ∧ (∀ dl, kv.2 = parr dl → nullableFlag (propsListOf (parr rl2)) kv.1 = true)
            ∧ (pisset kv.2 (ks "$ref") = true →
                createNullableProperty kv.2 =
                  parr
                    [(ks "anyOf",
                      parr
                        [(ki 0, parr [(ks "$ref", pqq kv.2 (ks "$ref") pnull)]),
                         (ki 1, parr [(ks "type", pstr "null")])]),
                     (ks "nullable", pbool true)]))
          ∧ (pisset (parr (propsListOf (parr c2Proxy))) kv.1 = true →
              pisset (parr (propsListOf (parr rl2))) kv.1 = true
              ∧ (kv.1 = ks "id" → ∀ wl,
                  aget (propsListOf (parr c2Proxy)) (ks "id") = some (parr wl) →
                  nullableFlag (propsListOf (parr rl2)) (ks "id") = true)) :=
  C2_makePropertiesNullable c2S "ProxyRoute" (List.mem_cons_self _ _) rfl c2Proxy rfl

/-! ### Claim C8: the join of the wrapped lines -/

/-- Reading a break character back as the space it overwrote. -/
def nlToSpace (c : Char) : Char := if c = '\n' then ' ' else c

/-- The character-level join with single spaces. -/
def joinChars : List (List Char) → List Char
  | [] => []
  | [a] => a
  | a :: t => a ++ ' ' :: joinChars t

/-- explode never yields an empty piece list. -/
theorem explodeOn_ne_nil (sep : Char) (cs : List Char) : explodeOn sep cs ≠ [] := by
  cases cs with
  | nil => exact fun hc => List.noConfusion hc
  | cons c t =>
    simp only [explodeOn]
    split
    · exact fun hc => List.noConfusion hc
    · split
      · exact fun hc => List.noConfusion hc
      · exact fun hc => List.noConfusion hc

/-- Joining the pieces of an explode restores the text with the separator
read back as a space. -/
theorem joinChars_explode (cs : List Char) :
    joinChars (explodeOn '\n' cs) = cs.map nlToSpace := by
  induction cs with
  | nil => rfl
  | cons c t ih =>
    simp only [explodeOn]
    by_cases hc : c = '\n'
    · rw [if_pos hc]
      subst hc
      cases hes : explodeOn '\n' t with
      | nil => exact absurd hes (explodeOn_ne_nil _ _)
      | cons e es =>
        rw [hes] at ih
        show [] ++ ' ' :: joinChars (e :: es) = List.map nlToSpace ('\n' :: t)
        rw [List.nil_append, ih]
        rfl
    · rw [if_neg hc]
      cases hes : explodeOn '\n' t with
      | nil => exact absurd hes (explodeOn_ne_nil _ _)
      | cons e es =>
        rw [hes] at ih
        have hcn : nlToSpace c = c := by
          unfold nlToSpace
          rw [if_neg hc]
        cases es with
        | nil =>
          show c :: e = List.map nlToSpace (c :: t)
          have he : e = t.map nlToSpace := ih
          show c :: e = nlToSpace c :: t.map nlToSpace
          rw [he, hcn]
        | cons e2 es2 =>
          show (c :: e) ++ ' ' :: joinChars (e2 :: es2) = List.map nlToSpace (c :: t)
          have ih2 : e ++ ' ' :: joinChars (e2 :: es2) = t.map nlToSpace := ih
          rw [List.cons_append, ih2]
          show c :: t.map nlToSpace = nlToSpace c :: t.map nlToSpace
          rw [hcn]

/-- The string join of made-up strings is the made-up character join. -/
theorem joinWithSpaces_mk (ls : List (List Char)) :
    joinWithSpaces (ls.map String.mk) = String.mk (joinChars ls) := by
  induction ls with
  | nil => rfl
  | cons a t ih =>
    cases t with
    | nil => rfl
    | cons b t2 =>
      show String.mk a ++ " " ++ joinWithSpaces ((b :: t2).map String.mk) =
        String.mk (a ++ ' ' :: joinChars (b :: t2))
      rw [ih]
      show String.mk ((a ++ [' ']) ++ joinChars (b :: t2)) =
        String.mk (a ++ ' ' :: joinChars (b :: t2))
      rw [List.append_assoc]
      rfl

/-- Whitespace collapsing with a space replacement emits no newline. -/
theorem collapseRuns_no_nl (inRun : Bool) (cs : List Char) :
    '\n' ∉ collapseRuns ' ' inRun cs := by
  induction cs generalizing inRun with
  | nil => exact List.not_mem_nil _
  | cons c t ih =>
    unfold collapseRuns
    split
    · split
      · exact ih true
      · intro hm
        rw [List.mem_cons] at hm
        cases hm with
        | inl h => exact absurd h (by decide)
        | inr h => exact ih true h
    · next hc =>
      intro hm
      rw [List.mem_cons] at hm
      cases hm with
      | inl h =>
        rw [← h] at hc
        exact hc (by decide)
      | inr h => exact ih false h

/-- Members of a dropWhile are members of the list. -/
theorem dropWhile_mem {p : Char → Bool} {l : List Char} {x : Char}
    (h : x ∈ l.dropWhile p) : x ∈ l :=
  (List.dropWhile_sublist p).subset h

/-- The rest returned by the closing match is part of its input. -/
theorem brClose_mem {t a : List Char} (h : brClose t = some a) {x : Char} (hx : x ∈ a) :
    x ∈ t := by
  cases t with
  | nil => simp [brClose] at h
  | cons c u =>
    cases u with
    | nil =>
      simp only [brClose] at h
      split at h
      · cases h
        exact absurd hx (List.not_mem_nil x)
      · simp at h
    | cons d after =>
      simp only [brClose] at h
      split at h
      · cases h
        exact List.mem_cons_of_mem _ (List.mem_cons_of_mem _ hx)
      · split at h
        · cases h
          exact List.mem_cons_of_mem _ hx
        · simp at h

/-- The rest returned by the br-tag match is part of its input. -/
theorem brMatch_mem {t a : List Char} (h : brMatch t = some a) {x : Char} (hx : x ∈ a) :
    x ∈ t := by
  cases t with
  | nil => simp [brMatch] at h
  | cons b u =>
    cases u with
    | nil => simp [brMatch] at h
    | cons r rest =>
      simp only [brMatch] at h
      split at h
      · exact List.mem_cons_of_mem _
          (List.mem_cons_of_mem _ (dropWhile_mem (brClose_mem h hx)))
      · exact Option.noConfusion h

/-- The br-tag removal emits no newline when its input has none. -/
theorem brRemove_no_nl : ∀ (n : Nat) (cs : List Char), cs.length ≤ n → ('\n' ∉ cs) →
    '\n' ∉ brRemove cs := by
  intro n
  induction n with
  | zero =>
    intro cs hl hn
    cases cs with
    | nil =>
      rw [brRemove]
      exact List.not_mem_nil _
    | cons c t => simp at hl
  | succ m ih =>
    intro cs hl hn
    cases cs with
    | nil =>
      rw [brRemove]
      exact List.not_mem_nil _
    | cons c t =>
      rw [brRemove]
      have hnt : '\n' ∉ t := fun hm => hn (List.mem_cons_of_mem _ hm)
      have hlt : t.length ≤ m := by
        simp only [List.length_cons] at hl
        omega
      split
      · split
        next after hma =>
          exact ih after (le_trans (brMatch_length hma) hlt) fun hm => hnt (brMatch_mem hma hm)
        next hma =>
          intro hm
          rw [List.mem_cons] at hm
          cases hm with
          | inl h2 => exact absurd h2 (by decide)
          | inr h2 => exact ih t hlt hnt h2
      · intro hm
        rw [List.mem_cons] at hm
        cases hm with
        | inl h2 =>
          apply hn
          rw [h2]
          exact List.mem_cons_self _ _
        | inr h2 => exact ih t hlt hnt h2

/-- The pointwise invariant of the wordwrap loop: the output keeps the
length of the text and differs from it only by break characters written
over spaces. -/
theorem wwLoop_pointwise (text : List Char) (ll : Nat) :
    ∀ (n current laststart lastspace : Nat) (newtext : List Char),
      text.length - current ≤ n →
      newtext.length = text.length →
      (∀ i : Nat, newtext.get? i = text.get? i ∨
        (text.get? i = some ' ' ∧ newtext.get? i = some '\n')) →
      (laststart ≠ lastspace → text.get? lastspace = some ' ') →
      (wwLoop text ll current laststart lastspace newtext).length = text.length
      ∧ ∀ i : Nat,
          (wwLoop text ll current laststart lastspace newtext).get? i = text.get? i ∨
          (text.get? i = some ' '
            ∧ (wwLoop text ll current laststart lastspace newtext).get? i = some '\n') := by
  intro n
  induction n with
  | zero =>
    intro current laststart lastspace newtext hfuel hlen hinv hls
    rw [wwLoop, dif_neg (by omega)]
    exact ⟨hlen, hinv⟩
  | succ m ih =>
    intro current laststart lastspace newtext hfuel hlen hinv hls
    rw [wwLoop]
    by_cases h : current < text.length
    · rw [dif_pos h]
      have hcur : text.get? current = some (text.get ⟨current, h⟩) := List.get?_eq_get h
      by_cases hc1 : text.get ⟨current, h⟩ = '\n'
      · rw [if_pos hc1]
        exact ih (current + 1) (current + 1) (current + 1) newtext (by omega) hlen hinv
          fun hx => absurd rfl hx
      · rw [if_neg hc1]
        by_cases hc2 : text.get ⟨current, h⟩ = ' '
        · rw [if_pos hc2]
          have hsp : text.get? current = some ' ' := by
            rw [hcur, hc2]
          by_cases hc3 : ll ≤ current - laststart
          · rw [if_pos hc3]
            refine ih (current + 1) (current + 1) current (newtext.set current '\n')
              (by omega) (by rw [List.length_set]; exact hlen) ?_ fun _ => hsp
            intro i
            by_cases hi : i = current
            · subst hi
              right
              refine ⟨hsp, ?_⟩
              exact List.get?_set_eq_of_lt '\n' (by rw [hlen]; exact h)
            · rw [List.get?_set_ne '\n' newtext fun hc => hi hc.symm]
              exact hinv i
          · rw [if_neg hc3]
            exact ih (current + 1) laststart current newtext (by omega) hlen hinv
              fun _ => hsp
        · rw [if_neg hc2]
          by_cases hc4 : ll ≤ current - laststart ∧ laststart ≠ lastspace
          · rw [if_pos hc4]
            have hsp : text.get? lastspace = some ' ' := hls hc4.2
            have hlt : lastspace < text.length := by
              by_contra hge
              rw [List.get?_eq_none.mpr (by omega)] at hsp
              exact Option.noConfusion hsp
            refine ih (current + 1) (lastspace + 1) lastspace (newtext.set lastspace '\n')
              (by omega) (by rw [List.length_set]; exact hlen) ?_ fun _ => hsp
            intro i
            by_cases hi : i = lastspace
            · subst hi
              right
              refine ⟨hsp, ?_⟩
              exact List.get?_set_eq_of_lt '\n' (by rw [hlen]; exact hlt)
            · rw [List.get?_set_ne '\n' newtext fun hc => hi hc.symm]
              exact hinv i
          · rw [if_neg hc4]
            exact ih (current + 1) laststart lastspace newtext (by omega) hlen hinv hls
    · rw [dif_neg h]
      exact ⟨hlen, hinv⟩

/-- The wrapped text differs from its input only by breaks over spaces. -/
theorem phpWordwrap_pointwise (cs : List Char) (ll : Nat) :
    (phpWordwrapNL cs ll).length = cs.length
    ∧ ∀ i : Nat, (phpWordwrapNL cs ll).get? i = cs.get? i ∨
        (cs.get? i = some ' ' ∧ (phpWordwrapNL cs ll).get? i = some '\n') := by
  unfold phpWordwrapNL
  exact wwLoop_pointwise cs ll cs.length 0 0 0 cs (by omega) rfl (fun i => Or.inl rfl)
    fun hx => absurd rfl hx

/-- Reading breaks back as spaces undoes the wrap on newline-free input. -/
theorem wrap_map_back (cs : List Char) (ll : Nat) (hnl : '\n' ∉ cs) :
    (phpWordwrapNL cs ll).map nlToSpace = cs := by
  obtain ⟨hlen, hp⟩ := phpWordwrap_pointwise cs ll
  apply List.ext_get?
  intro i
  rw [List.get?_map]
  cases hp i with
  | inl h =>
    rw [h]
    cases hg : cs.get? i with
    | none => rfl
    | some a =>
      have ha : nlToSpace a = a := by
        unfold nlToSpace
        rw [if_neg]
        intro hc
        subst hc
        exact hnl (List.get?_mem hg)
      show some (nlToSpace a) = some a
      rw [ha]
  | inr h =>
    rw [h.2, h.1]
    rfl

/-- The normalized pre-wrap text contains no newline. -/
theorem normalize_no_nl (description : String) :
    '\n' ∉ (normalizeDescription description).data := by
  show '\n' ∉
    brRemove
      (collapseRuns ' ' false
        (phpTrim (replace3 '%' '2' 'F' ['/'] (linkRewrite description.data))))
  exact brRemove_no_nl _ _ (le_refl _) (collapseRuns_no_nl false _)

/-- C8: joining the line array produced by preprocessDescription with single
spaces reproduces exactly the normalized pre-wrap text - the text with links
rewritten, whitespace collapsed and br tags removed - because the wrap only
writes break characters over spaces and never breaks or alters a word. -/
theorem C8_join_reproduces_normalized (description : String) (wordwrapLength : Nat) :
    joinWithSpaces (preprocessDescription description wordwrapLength) =
      normalizeDescription description := by
  unfold preprocessDescription
  rw [joinWithSpaces_mk, joinChars_explode,
    wrap_map_back _ _ (normalize_no_nl description)]

end Upsun
